import Mathlib

/-!
# word_dict: a string dictionary on a character tree

Shallow embedding of `deps/dtree.hpp`, `src/dict/string_dict_utils.{h,cpp}`,
`src/dict/word_dict.{h,cpp}` and the `add_words` driver of `src/main_utils.hpp`.

Modelling conventions
* `std::string` is `List Char`; `char` is `Char`, ordered by code point.
* `std::map<char, dtree_node>` is the list of its entries in increasing key order;
  `dtree_node` holds nothing else, so a node is the list of its (symbol, child) entries.
* `unsigned int` counters are natural numbers: every counter of the source is bounded by
  the length of the query plus the depth of the tree, which is taken to fit the type.
  The one counter initialised from a size, `s_lev_row_size` of
  `match_string_levenshtein_distance`, is also modelled at its width of 32 bits
  (`to_uint`, `lev_search_uint`, `match_string_levenshtein_distance_uint`): it wraps
  for a query of 2^32 - 2 characters or more.
* A checked access `v.at(i)` is `checked_at`, which fails with `Err.out_of_range`.
* `while` loops run on fuel; the public functions supply the fuel, and running out of
  it is the error `Err.out_of_fuel` (proved unreachable below).
* References into the tree are replaced by functional updates along the path walked.
-/

/-- The two ways an embedded function can fail to return a value. -/
inductive Err where
  | out_of_range
  | out_of_fuel
  deriving DecidableEq, Repr

/-- Checked element access `v.at(i)` of `std::string` and `std::vector`. -/
def checked_at {α : Type} (v : List α) (i : Nat) : Except Err α :=
  match v[i]? with
  | some a => .ok a
  | none => .error .out_of_range

/-- Decimal rendering `std::to_string(n)` of an unsigned integer. -/
def to_string (n : Nat) : List Char := Nat.toDigits 10 n

/-! ## deps/dtree.hpp -/

/-- Class `dtree_node<char>`: the only member is the ordered map `m_children`. -/
inductive dtree_node where
  | mk (m_children : List (Char × dtree_node))

namespace dtree_node

/-- The member `m_children`, entries in increasing key order. -/
def m_children : dtree_node → List (Char × dtree_node)
  | mk cs => cs

/-- Lookup `std::map::at` on the entries of a children map. -/
def map_at (input : Char) : List (Char × dtree_node) → Option dtree_node
  | [] => none
  | (k, v) :: rest => if input = k then some v else map_at input rest

/-- Member `child_ptr`: the child for `input`, `none` standing for the null pointer. -/
def child_ptr (n : dtree_node) (input : Char) : Option dtree_node :=
  map_at input n.m_children

/-- Access `m_children[input]` followed by the update `f` of the entry referenced:
an absent key is inserted at its place in key order with a default-constructed node. -/
def map_index (input : Char) (f : dtree_node → dtree_node) :
    List (Char × dtree_node) → List (Char × dtree_node)
  | [] => [(input, f (mk []))]
  | (k, v) :: rest =>
    if input = k then (k, f v) :: rest
    else if input < k then (input, f (mk [])) :: (k, v) :: rest
    else (k, v) :: map_index input f rest

/-- Member `set_child`: the node after the call (the reference returned is the child
for `input` of the result). -/
def set_child (n : dtree_node) (input : Char) : dtree_node :=
  mk (map_index input id n.m_children)

/-- Erasure `std::map::erase(key)`: the remaining entries and the number erased. -/
def map_erase (input : Char) : List (Char × dtree_node) → List (Char × dtree_node) × Nat
  | [] => ([], 0)
  | (k, v) :: rest =>
    if input = k then (rest, 1)
    else ((k, v) :: (map_erase input rest).1, (map_erase input rest).2)

/-- Member `unset_child`: the returned flag and the node after the call. -/
def unset_child (n : dtree_node) (input : Char) : Bool × dtree_node :=
  ((map_erase input n.m_children).2 == 1, mk (map_erase input n.m_children).1)

/-- Member `number_of_children`. -/
def number_of_children (n : dtree_node) : Nat := n.m_children.length

/-- Member `has_children`. -/
def has_children (n : dtree_node) : Bool := !n.m_children.isEmpty

mutual
/-- Number of nodes of the subtree rooted at a node (the node included). -/
def size : dtree_node → Nat
  | mk cs => 1 + size_children cs
/-- Number of nodes below the entries of a children map. -/
def size_children : List (Char × dtree_node) → Nat
  | [] => 0
  | (_, n) :: rest => size n + size_children rest
end

end dtree_node

/-- Class `dtree<char>`: a root node, present also in the empty tree. -/
structure dtree where
  m_root : dtree_node

namespace dtree

/-- Constructor `dtree()`. -/
def empty : dtree := ⟨dtree_node.mk []⟩

/-- Member `root`. -/
def root (t : dtree) : dtree_node := t.m_root

end dtree

/-! ## src/dict/string_dict_utils.h -/

namespace string_dict_utils

/-- Struct `match_data`. -/
structure match_data where
  algorithm : List Char
  source : List Char
  success : Bool
  message : List Char
  deriving DecidableEq, Repr

namespace match_data

/-- Member `set`: only the message builder selected by `success` is run. -/
def set (algorithm source : List Char) (success : Bool)
    (message_success message_failure : Unit → Except Err (List Char)) :
    Except Err match_data :=
  match (if success then message_success () else message_failure ()) with
  | .ok message => .ok ⟨algorithm, source, success, message⟩
  | .error e => .error e

end match_data

/-! ## src/dict/string_dict_utils.cpp -/

/-- Constant `tree_end_of_string_marker`. -/
def tree_end_of_string_marker : Char := '$'

/-- The loop of `add_string`: `node = &node->set_child(c)` for each `c`, as the update
of the node the walk starts from. -/
def add_string_loop : List Char → dtree_node → dtree_node
  | [], node => node
  | c :: cs, node => dtree_node.mk (dtree_node.map_index c (add_string_loop cs) node.m_children)

/-- Function `add_string`: the returned flag and the tree after the call. -/
def add_string (tree : dtree) (str : List Char) : Bool × dtree :=
  if tree_end_of_string_marker ∈ str then (false, tree)
  else (true, ⟨add_string_loop (str ++ [tree_end_of_string_marker]) tree.root⟩)

/-- The do-while loop of `match_string_exactly`; returns `s_nb_chars_read` at exit. -/
def match_string_exactly_loop (s : List Char) (s_len : Nat) :
    Nat → dtree_node → Nat → Except Err Nat
  | 0, _, _ => .error .out_of_fuel
  | fuel + 1, node, s_nb_chars_read =>
    match checked_at s s_nb_chars_read with
    | .error e => .error e
    | .ok c =>
      match node.child_ptr c with
      | none => .ok s_nb_chars_read
      | some child =>
        if s_nb_chars_read + 1 < s_len then
          match_string_exactly_loop s s_len fuel child (s_nb_chars_read + 1)
        else .ok (s_nb_chars_read + 1)

/-- Function `match_string_exactly`. -/
def match_string_exactly (tree : dtree) (str : List Char) : Except Err match_data :=
  let s := str ++ [tree_end_of_string_marker]
  let s_len := s.length
  match match_string_exactly_loop s s_len s_len tree.root 0 with
  | .error e => .error e
  | .ok s_nb_chars_read =>
    match_data.set "exact-match".toList str (s_nb_chars_read == s_len)
      (fun _ => .ok ("\"".toList ++ s ++ "\" matched successfully".toList))
      (fun _ =>
        match checked_at s s_nb_chars_read with
        | .error e => .error e
        | .ok c =>
          .ok ("\"".toList ++ s ++ "\" failed to match at \x27".toList ++ [c]
            ++ "\x27 after reading \"".toList ++ s.take s_nb_chars_read
            ++ "\" successfully".toList))

/-- The variables `s_matched`, `s_matched_string`, `s_matched_string_cost` of the two
worklist searches. -/
structure search_vars where
  s_matched : Bool
  s_matched_string : List Char
  s_matched_string_cost : Nat
  deriving DecidableEq, Repr

/-- Initial values of the search variables. -/
def search_vars.init : search_vars := ⟨false, [], 0⟩

/-- An entry of the stack `unvisited_nodes` of `match_string_allow_substitution`. -/
structure subst_entry where
  node : dtree_node
  read_string : List Char
  nb_chars_read : Nat
  subst_cost : Nat

/-- The for loop over the children of the picked node in
`match_string_allow_substitution`; it stops at the `break`. -/
def subst_visit (s_len subst_max : Nat) (prev : subst_entry) (expected_char : Char) :
    List (Char × dtree_node) → search_vars → List subst_entry →
    search_vars × List subst_entry
  | [], vars, unvisited_nodes => (vars, unvisited_nodes)
  | (first, second) :: rest, vars, unvisited_nodes =>
    let curr_read_string := prev.read_string ++ [first]
    let curr_nb_chars_read := prev.nb_chars_read + 1
    if expected_char = first then
      if curr_nb_chars_read = s_len then
        if prev.subst_cost ≤ subst_max then
          (⟨true, curr_read_string, prev.subst_cost⟩, unvisited_nodes)
        else subst_visit s_len subst_max prev expected_char rest vars unvisited_nodes
      else
        if curr_nb_chars_read < s_len then
          subst_visit s_len subst_max prev expected_char rest vars
            (⟨second, curr_read_string, curr_nb_chars_read, prev.subst_cost⟩
              :: unvisited_nodes)
        else subst_visit s_len subst_max prev expected_char rest vars unvisited_nodes
    else
      if curr_nb_chars_read < s_len then
        subst_visit s_len subst_max prev expected_char rest vars
          (⟨second, curr_read_string, curr_nb_chars_read, prev.subst_cost + 1⟩
            :: unvisited_nodes)
      else subst_visit s_len subst_max prev expected_char rest vars unvisited_nodes

/-- The while loop of `match_string_allow_substitution`; the head of the list is the
top of the stack. -/
def subst_loop (s : List Char) (s_len subst_max : Nat) :
    Nat → search_vars → List subst_entry → Except Err search_vars
  | 0, _, _ => .error .out_of_fuel
  | fuel + 1, vars, unvisited_nodes =>
    if vars.s_matched then .ok vars
    else
      match unvisited_nodes with
      | [] => .ok vars
      | prev :: popped =>
        match checked_at s prev.nb_chars_read with
        | .error e => .error e
        | .ok expected_char =>
          let r := subst_visit s_len subst_max prev expected_char prev.node.m_children
            vars popped
          subst_loop s s_len subst_max fuel r.1 r.2

/-- The search of `match_string_allow_substitution`: the while loop run from the stack
holding the root, on fuel for one round per tree node; returns the search variables. -/
def subst_search (tree : dtree) (str : List Char) (subst_max : Nat) :
    Except Err search_vars :=
  let s := str ++ [tree_end_of_string_marker]
  let s_len := s.length
  subst_loop s s_len subst_max (tree.root.size + 1) search_vars.init
    [⟨tree.root, [], 0, 0⟩]

/-- Function `match_string_allow_substitution`. -/
def match_string_allow_substitution (tree : dtree) (str : List Char) (subst_max : Nat) :
    Except Err match_data :=
  let s := str ++ [tree_end_of_string_marker]
  match subst_search tree str subst_max with
  | .error e => .error e
  | .ok vars =>
    match_data.set ("subst-match(".toList ++ to_string subst_max ++ ")".toList) str
      vars.s_matched
      (fun _ => .ok ("\"".toList ++ s ++ "\" matched successfully with \"".toList
        ++ vars.s_matched_string ++ "\" using ".toList
        ++ to_string vars.s_matched_string_cost ++ " substs".toList))
      (fun _ => .ok ("\"".toList ++ s ++ "\" failed to match".toList))

/-- The for loop filling `curr_lev_row` from index 1 in
`match_string_levenshtein_distance`. -/
def lev_row_loop (s : List Char) (first : Char) (prev_lev_row : List Nat) :
    List Nat → List Nat → Except Err (List Nat)
  | [], curr_lev_row => .ok curr_lev_row
  | i :: is, curr_lev_row =>
    match checked_at curr_lev_row (i - 1), checked_at prev_lev_row i,
        checked_at prev_lev_row (i - 1), checked_at s (i - 1) with
    | .ok ins, .ok del, .ok sub, .ok c =>
      lev_row_loop s first prev_lev_row is
        (curr_lev_row ++ [min (ins + 1) (min (del + 1) (sub + (if first = c then 0 else 1)))])
    | _, _, _, _ => .error .out_of_range

/-- Computation of `curr_lev_row` for the edge labelled `first`. -/
def lev_row (s : List Char) (first : Char) (prev_lev_row : List Nat) :
    Except Err (List Nat) :=
  match checked_at prev_lev_row 0 with
  | .error e => .error e
  | .ok p0 =>
    lev_row_loop s first prev_lev_row (List.range' 1 (prev_lev_row.length - 1)) [p0 + 1]

/-- Value `*std::min_element(v.begin(), v.end())`: the first least element. -/
def min_element (v : List Nat) : Except Err Nat :=
  match v with
  | [] => .error .out_of_range
  | a :: rest => .ok (rest.foldl (fun m x => if x < m then x else m) a)

/-- An entry of the stack `unvisited_nodes` of `match_string_levenshtein_distance`. -/
structure lev_entry where
  node : dtree_node
  read_string : List Char
  lev_row : List Nat

/-- The for loop over the children of the picked node in
`match_string_levenshtein_distance`; it stops at the `break`. -/
def lev_visit (s : List Char) (edit_max : Nat) (prev : lev_entry) :
    List (Char × dtree_node) → search_vars → List lev_entry →
    Except Err (search_vars × List lev_entry)
  | [], vars, unvisited_nodes => .ok (vars, unvisited_nodes)
  | (first, second) :: rest, vars, unvisited_nodes =>
    let curr_read_string := prev.read_string ++ [first]
    match lev_row s first prev.lev_row with
    | .error e => .error e
    | .ok curr_lev_row =>
      match checked_at curr_lev_row (curr_lev_row.length - 1) with
      | .error e => .error e
      | .ok curr_lev_row_goal_cost =>
        let vars1 : search_vars :=
          if curr_lev_row_goal_cost ≤ edit_max ∧ first = tree_end_of_string_marker then
            ⟨true, curr_read_string, curr_lev_row_goal_cost⟩
          else vars
        match min_element curr_lev_row with
        | .error e => .error e
        | .ok curr_lev_row_min_cost =>
          let unvisited1 : List lev_entry :=
            if curr_lev_row_min_cost ≤ edit_max then
              ⟨second, curr_read_string, curr_lev_row⟩ :: unvisited_nodes
            else unvisited_nodes
          if vars1.s_matched then .ok (vars1, unvisited1)
          else lev_visit s edit_max prev rest vars1 unvisited1

/-- The while loop of `match_string_levenshtein_distance`; the head of the list is the
top of the stack. -/
def lev_loop (s : List Char) (edit_max : Nat) :
    Nat → search_vars → List lev_entry → Except Err search_vars
  | 0, _, _ => .error .out_of_fuel
  | fuel + 1, vars, unvisited_nodes =>
    if vars.s_matched then .ok vars
    else
      match unvisited_nodes with
      | [] => .ok vars
      | prev :: popped =>
        match lev_visit s edit_max prev prev.node.m_children vars popped with
        | .error e => .error e
        | .ok r => lev_loop s edit_max fuel r.1 r.2

/-- The search of `match_string_levenshtein_distance`: the while loop run from the stack
holding the root with the first row, on fuel for one round per tree node; returns the
search variables. The size `s_lev_row_size` of the first row is a natural number here;
`lev_search_uint` has it at the 32 bits of the source, and is this function for a query
shorter than 2^32 - 2 characters. -/
def lev_search (tree : dtree) (str : List Char) (edit_max : Nat) :
    Except Err search_vars :=
  let s := str ++ [tree_end_of_string_marker]
  let s_lev_row := List.range (s.length + 1)
  lev_loop s edit_max (tree.root.size + 1) search_vars.init [⟨tree.root, [], s_lev_row⟩]

/-- Function `match_string_levenshtein_distance`. -/
def match_string_levenshtein_distance (tree : dtree) (str : List Char) (edit_max : Nat) :
    Except Err match_data :=
  let s := str ++ [tree_end_of_string_marker]
  match lev_search tree str edit_max with
  | .error e => .error e
  | .ok vars =>
    match_data.set ("leven-match(".toList ++ to_string edit_max ++ ")".toList) str
      vars.s_matched
      (fun _ => .ok ("\"".toList ++ s ++ "\" matched successfully with \"".toList
        ++ vars.s_matched_string ++ "\" using ".toList
        ++ to_string vars.s_matched_string_cost ++ " edits".toList))
      (fun _ => .ok ("\"".toList ++ s ++ "\" failed to match".toList))

/-- Conversion of a size to `unsigned int`, 32 bits wide: the value modulo 2^32. -/
def to_uint (n : Nat) : Nat := n % 2 ^ 32

/-- The search of `match_string_levenshtein_distance` with `s_lev_row_size` at the
width the source declares it: `const uint s_lev_row_size = s.length() + 1` converts the
size to `unsigned int`, and the for loop pushes `0, ..., s_lev_row_size - 1` on the
first row. The rest is `lev_search`: every later row has the size of the first row, so
`prev_lev_row_size` and the indices below it do not wrap, and the entries of the rows
and the costs are never used as an index. -/
def lev_search_uint (tree : dtree) (str : List Char) (edit_max : Nat) :
    Except Err search_vars :=
  let s := str ++ [tree_end_of_string_marker]
  let s_lev_row_size := to_uint (s.length + 1)
  let s_lev_row := List.range s_lev_row_size
  lev_loop s edit_max (tree.root.size + 1) search_vars.init [⟨tree.root, [], s_lev_row⟩]

/-- Function `match_string_levenshtein_distance` on the search with `s_lev_row_size` at
32 bits. -/
def match_string_levenshtein_distance_uint (tree : dtree) (str : List Char)
    (edit_max : Nat) : Except Err match_data :=
  let s := str ++ [tree_end_of_string_marker]
  match lev_search_uint tree str edit_max with
  | .error e => .error e
  | .ok vars =>
    match_data.set ("leven-match(".toList ++ to_string edit_max ++ ")".toList) str
      vars.s_matched
      (fun _ => .ok ("\"".toList ++ s ++ "\" matched successfully with \"".toList
        ++ vars.s_matched_string ++ "\" using ".toList
        ++ to_string vars.s_matched_string_cost ++ " edits".toList))
      (fun _ => .ok ("\"".toList ++ s ++ "\" failed to match".toList))

mutual
/-- Recursive overload of `fetch_tree_strings` on a node: the strings handed to the
callback, in call order, for the accumulator `acc` at entry. -/
def fetch_tree_strings_node : dtree_node → List Char → List (List Char)
  | dtree_node.mk cs, acc => fetch_tree_strings_children cs acc
/-- The for loop of the recursive overload, over the remaining children. -/
def fetch_tree_strings_children : List (Char × dtree_node) → List Char → List (List Char)
  | [], _ => []
  | (first, second) :: rest, acc =>
    (if second.has_children then fetch_tree_strings_node second (acc ++ [first])
      else [acc ++ [first]])
      ++ fetch_tree_strings_children rest acc
end

/-- Overloads of `fetch_tree_strings` on a tree: the vector is cleared first, so the
result is the list of the strings handed to the callback. -/
def fetch_tree_strings (tree : dtree) : List (List Char) :=
  fetch_tree_strings_node tree.root []

end string_dict_utils

/-! ## src/dict/word_dict.{h,cpp} -/

/-- Class `word_dict`. -/
structure word_dict where
  m_words : dtree

namespace word_dict

/-- Constructor `word_dict()`. -/
def empty : word_dict := ⟨dtree.empty⟩

/-- Member `add_word`: the returned flag and the dictionary after the call. -/
def add_word (d : word_dict) (word : List Char) : Bool × word_dict :=
  ((string_dict_utils.add_string d.m_words word).1,
    ⟨(string_dict_utils.add_string d.m_words word).2⟩)

/-- Member `match_word_allow_substitution`. -/
def match_word_allow_substitution (d : word_dict) (word : List Char) (subst_max : Nat) :
    Except Err string_dict_utils.match_data :=
  string_dict_utils.match_string_allow_substitution d.m_words word subst_max

/-- Member `fetch_words`. -/
def fetch_words (d : word_dict) : List (List Char) :=
  string_dict_utils.fetch_tree_strings d.m_words

/-- Member `end_of_word_marker`. -/
def end_of_word_marker : Char := string_dict_utils.tree_end_of_string_marker

end word_dict

/-! ## src/main_utils.hpp -/

/-- Function `add_words`: the dictionary after the calls (the printing is left out). -/
def add_words (dict : word_dict) (words : List (List Char)) : word_dict :=
  words.foldl (fun d word => (d.add_word word).2) dict

/-! ## Specification vocabulary -/

/-- The words of a run of `add_words` for which `add_word` returned true. -/
def accepted_words (dict : word_dict) : List (List Char) → List (List Char)
  | [] => []
  | word :: words =>
    if (dict.add_word word).1 then word :: accepted_words (dict.add_word word).2 words
    else accepted_words (dict.add_word word).2 words

/-- Number of positions at which two strings differ (positions present in both). -/
def subst_distance : List Char → List Char → Nat
  | a :: as, b :: bs => (if a = b then 0 else 1) + subst_distance as bs
  | _, _ => 0

namespace dtree_node

/-- Number of leading characters of a string that can be followed from a node along
child edges. -/
def follow : dtree_node → List Char → Nat
  | _, [] => 0
  | n, c :: cs =>
    match n.child_ptr c with
    | none => 0
    | some m => 1 + follow m cs

/-- The invariant of `std::map`: at every node the keys are strictly increasing. -/
inductive ordered : dtree_node → Prop
  | mk (cs : List (Char × dtree_node)) :
    (cs.map Prod.fst).Pairwise (fun a b => a < b) → (∀ e ∈ cs, ordered e.2) →
    ordered (dtree_node.mk cs)

/-- A walk along entries of the children maps: `walk n p m` when the string `p` labels
a chain of entries leading from `n` to `m`. -/
inductive walk : dtree_node → List Char → dtree_node → Prop
  | nil (n : dtree_node) : walk n [] n
  | cons {n m q : dtree_node} {c : Char} {p : List Char} :
    (c, m) ∈ n.m_children → walk m p q → walk n (c :: p) q

end dtree_node

namespace string_dict_utils

/-- The entry pushed for a child by the for loop of `match_string_allow_substitution`
when the child is not the end of the search. -/
def subst_succ (prev : subst_entry) (expected_char : Char) (e : Char × dtree_node) :
    subst_entry :=
  ⟨e.2, prev.read_string ++ [e.1], prev.nb_chars_read + 1,
    prev.subst_cost + (if expected_char = e.1 then 0 else 1)⟩

/-- Number of tree nodes below the entries of a substitution-search stack. -/
def subst_stack_size (stack : List subst_entry) : Nat :=
  (stack.map (fun e => e.node.size)).sum

/-- Number of tree nodes below the entries of a Levenshtein-search stack. -/
def lev_stack_size (stack : List lev_entry) : Nat :=
  (stack.map (fun e => e.node.size)).sum

end string_dict_utils

/-- What the substitution search has established about an entry of its stack. -/
def subst_inv (s : List Char) (root : dtree_node)
    (e : string_dict_utils.subst_entry) : Prop :=
  dtree_node.walk root e.read_string e.node ∧ e.nb_chars_read = e.read_string.length ∧
    e.nb_chars_read < s.length ∧ e.subst_cost = subst_distance e.read_string s

/-- The strings the substitution search looks for: `p` labels a walk from the root to a
node with an entry for the last character of `s`, and has one character less than `s`. -/
def subst_goal (s : List Char) (root : dtree_node) (p : List Char) (c : Char) : Prop :=
  ∃ n child, dtree_node.walk root p n ∧ (c, child) ∈ n.m_children ∧
    s[p.length]? = some c ∧
    p.length + 1 = s.length

/-- The strings stored in the tree below a node: `p` labels a walk from the node that
an entry for the end-of-string marker continues. -/
def dtree_node.stored (root : dtree_node) (p : List Char) : Prop :=
  ∃ n child, dtree_node.walk root p n ∧
    (string_dict_utils.tree_end_of_string_marker, child) ∈ n.m_children

/-- Levenshtein distance of two strings: the least number of single-character
insertions, deletions and substitutions that turn one into the other (the edit distance
of Mathlib with its default costs). -/
def lev_distance (x y : List Char) : Nat :=
  levenshtein Levenshtein.defaultCost x y

/-- The row of the Levenshtein matrix for the string `acc` read from the tree: entry
`i` is the distance from `acc` to the first `i` characters of `s`. -/
def lev_row_of (s acc : List Char) : List Nat :=
  (List.range (s.length + 1)).map (fun i => lev_distance acc (s.take i))

/-- The marker convention on a tree: at every node, the child under an entry has no
children exactly when the entry is labelled by the end-of-string marker. -/
inductive dtree_node.marked : dtree_node → Prop
  | mk (cs : List (Char × dtree_node)) :
    (∀ e ∈ cs, (e.1 = string_dict_utils.tree_end_of_string_marker ↔ e.2.m_children = [])) →
    (∀ e ∈ cs, marked e.2) → marked (dtree_node.mk cs)

namespace string_dict_utils

/-- Call `strings.clear()` on a vector. -/
def vector_clear (_strings : List (List Char)) : List (List Char) := []

/-- Vector overload of `fetch_tree_strings`, with the content of the vector at entry:
the vector is cleared, then the callback pushes each string at its back. -/
def fetch_tree_strings_vector (tree : dtree) (strings : List (List Char)) :
    List (List Char) :=
  (fetch_tree_strings_node tree.root []).foldl (fun v str => v ++ [str])
    (vector_clear strings)

end string_dict_utils

/-! ## Theorems -/

open string_dict_utils dtree_node

@[simp] theorem dtree_node.m_children_mk (cs : List (Char × dtree_node)) :
    (dtree_node.mk cs).m_children = cs := rfl

theorem checked_at_of_lt {α : Type} (v : List α) (i : Nat) (h : i < v.length) :
    checked_at v i = .ok v[i] := by
  simp [checked_at, List.getElem?_eq_getElem h]

theorem follow_le (n : dtree_node) (p : List Char) : follow n p ≤ p.length := by
  induction p generalizing n with
  | nil => simp [follow]
  | cons c cs ih =>
    simp only [follow]
    cases h : n.child_ptr c with
    | none => simp
    | some m => have := ih m; simp; omega

theorem match_string_exactly_loop_eq (s : List Char) (fuel : Nat) (node : dtree_node)
    (i : Nat) (hi : i < s.length) (hf : s.length ≤ fuel + i) :
    match_string_exactly_loop s s.length fuel node i = .ok (i + follow node (s.drop i)) := by
  induction fuel generalizing node i with
  | zero => omega
  | succ fuel ih =>
    have hd : s.drop i = s[i] :: s.drop (i + 1) := by
      rw [List.drop_eq_getElem_cons hi]
    rw [match_string_exactly_loop, checked_at_of_lt s i hi, hd]
    simp only [follow]
    cases h : node.child_ptr s[i] with
    | none => simp
    | some child =>
      simp only []
      by_cases h2 : i + 1 < s.length
      · rw [if_pos h2, ih child (i + 1) h2 (by omega)]
        congr 1; omega
      · rw [if_neg h2]
        have : s.drop (i + 1) = [] := by
          apply List.drop_eq_nil_of_le; omega
        rw [this]; simp [follow]

/-- The value returned by `match_string_exactly`, message included. -/
theorem match_string_exactly_eq (tree : dtree) (str : List Char) :
    match_string_exactly tree str = .ok
      ⟨"exact-match".toList, str,
        decide (follow tree.root (str ++ [tree_end_of_string_marker]) = str.length + 1),
        if follow tree.root (str ++ [tree_end_of_string_marker]) = str.length + 1 then
          "\"".toList ++ (str ++ [tree_end_of_string_marker])
            ++ "\" matched successfully".toList
        else
          "\"".toList ++ (str ++ [tree_end_of_string_marker])
            ++ "\" failed to match at \x27".toList
            ++ [(str ++ [tree_end_of_string_marker]).getD
                (follow tree.root (str ++ [tree_end_of_string_marker])) ' ']
            ++ "\x27 after reading \"".toList
            ++ (str ++ [tree_end_of_string_marker]).take
                (follow tree.root (str ++ [tree_end_of_string_marker]))
            ++ "\" successfully".toList⟩ := by
  have hlen : (str ++ [tree_end_of_string_marker]).length = str.length + 1 := by simp
  have hloop := match_string_exactly_loop_eq (str ++ [tree_end_of_string_marker])
    (str ++ [tree_end_of_string_marker]).length tree.root 0 (by simp) (by simp)
  have hle := follow_le tree.root (str ++ [tree_end_of_string_marker])
  simp only [match_string_exactly, hloop, Nat.zero_add, List.drop_zero]
  by_cases h : follow tree.root (str ++ [tree_end_of_string_marker]) = str.length + 1
  · simp [match_data.set, hlen, h]
  · have hlt : follow tree.root (str ++ [tree_end_of_string_marker])
        < (str ++ [tree_end_of_string_marker]).length := by omega
    rw [match_data.set]
    simp only [hlen, beq_iff_eq, h, if_false, checked_at_of_lt _ _ hlt, decide_False]
    simp [List.getD_eq_getElem?_getD, List.getElem?_eq_getElem hlt, h]

namespace dtree_node

theorem map_index_idem (c : Char) (f : dtree_node → dtree_node)
    (hf : ∀ x, f (f x) = f x) (l : List (Char × dtree_node)) :
    map_index c f (map_index c f l) = map_index c f l := by
  induction l with
  | nil => simp [map_index, hf]
  | cons e rest ih =>
    obtain ⟨k, v⟩ := e
    by_cases h1 : c = k
    · simp [map_index, h1, hf]
    · by_cases h2 : c < k
      · simp [map_index, h1, h2, hf]
      · simp [map_index, h1, h2, ih]

theorem map_at_eq_none_of_lt (c : Char) (l : List (Char × dtree_node))
    (h : ∀ e ∈ l, c < e.1) : map_at c l = none := by
  induction l with
  | nil => rfl
  | cons e rest ih =>
    obtain ⟨k, v⟩ := e
    have hk : c < k := h (k, v) (by simp)
    have : c ≠ k := ne_of_lt hk
    simp only [map_at, this, if_false]
    exact ih (fun e he => h e (by simp [he]))

theorem map_at_map_index_ne (a c : Char) (hac : a ≠ c) (f : dtree_node → dtree_node)
    (l : List (Char × dtree_node)) :
    map_at a (map_index c f l) = map_at a l := by
  induction l with
  | nil => simp [map_index, map_at, hac]
  | cons e rest ih =>
    obtain ⟨k, v⟩ := e
    by_cases h1 : c = k
    · subst h1; simp [map_index, map_at, hac]
    · by_cases h2 : c < k
      · simp [map_index, map_at, h1, h2, hac]
      · simp [map_index, map_at, h1, h2, ih]

theorem map_at_map_index_sorted (c : Char) (f : dtree_node → dtree_node)
    (l : List (Char × dtree_node)) (hs : (l.map Prod.fst).Pairwise (fun a b => a < b)) :
    map_at c (map_index c f l) = some (f ((map_at c l).getD (mk []))) := by
  induction l with
  | nil => simp [map_index, map_at]
  | cons e rest ih =>
    obtain ⟨k, v⟩ := e
    simp only [List.map_cons, List.pairwise_cons, List.mem_map, forall_exists_index,
      and_imp] at hs
    by_cases h1 : c = k
    · simp [map_index, map_at, h1]
    · by_cases h2 : c < k
      · have hn : map_at c rest = none := by
          apply map_at_eq_none_of_lt
          intro e he
          exact lt_trans h2 (hs.1 e.1 e he rfl)
        simp [map_index, map_at, h1, h2, hn]
      · simp [map_index, map_at, h1, h2, ih hs.2]

theorem mem_map_index (c : Char) (f : dtree_node → dtree_node)
    (l : List (Char × dtree_node)) (e : Char × dtree_node) (he : e ∈ map_index c f l) :
    e ∈ l ∨ (e.1 = c ∧ (e.2 = f (mk []) ∨ ∃ v, (c, v) ∈ l ∧ e.2 = f v)) := by
  induction l with
  | nil =>
    simp only [map_index, List.mem_singleton] at he
    subst he; simp
  | cons x rest ih =>
    obtain ⟨k, v⟩ := x
    by_cases h1 : c = k
    · subst h1
      simp only [map_index, if_true, List.mem_cons] at he
      rcases he with he | he
      · subst he; right; exact ⟨rfl, Or.inr ⟨v, by simp, rfl⟩⟩
      · left; simp [he]
    · by_cases h2 : c < k
      · simp only [map_index, h1, h2, if_false, if_true, List.mem_cons] at he
        rcases he with he | he | he
        · subst he; right; exact ⟨rfl, Or.inl rfl⟩
        · left; simp [he]
        · left; simp [he]
      · simp only [map_index, h1, h2, if_false, List.mem_cons] at he
        rcases he with he | he
        · left; simp [he]
        · rcases ih he with h | ⟨h3, h4⟩
          · left; simp [h]
          · right
            refine ⟨h3, ?_⟩
            rcases h4 with h4 | ⟨w, hw, h4⟩
            · exact Or.inl h4
            · exact Or.inr ⟨w, by simp [hw], h4⟩

theorem map_index_sorted (c : Char) (f : dtree_node → dtree_node)
    (l : List (Char × dtree_node)) (hs : (l.map Prod.fst).Pairwise (fun a b => a < b)) :
    ((map_index c f l).map Prod.fst).Pairwise (fun a b => a < b) := by
  induction l with
  | nil => simp [map_index]
  | cons x rest ih =>
    obtain ⟨k, v⟩ := x
    have hs0 := hs
    simp only [List.map_cons, List.pairwise_cons, List.mem_map, forall_exists_index,
      and_imp] at hs
    by_cases h1 : c = k
    · subst h1
      simpa [map_index] using hs0
    · by_cases h2 : c < k
      · simp only [map_index, h1, h2, if_false, if_true, List.map_cons, List.pairwise_cons,
          List.mem_cons, List.mem_map, forall_eq_or_imp, forall_exists_index, and_imp]
        refine ⟨⟨trivial, ?_⟩, ?_, hs.2⟩
        · intro a e he hea
          exact lt_trans h2 (hs.1 a e he hea)
        · exact hs.1
      · have h3 : k < c := lt_of_le_of_ne (not_lt.mp h2) (Ne.symm h1)
        simp only [map_index, h1, h2, if_false, List.map_cons, List.pairwise_cons,
          List.mem_map, forall_exists_index, and_imp]
        refine ⟨?_, ih hs.2⟩
        intro a e he hea
        rcases mem_map_index c f rest e he with h | ⟨h4, _⟩
        · exact hs.1 a e h hea
        · rw [← hea, h4]; exact h3

theorem ordered_nil : ordered (mk []) := ordered.mk [] (by simp) (by simp)

theorem ordered_children {cs : List (Char × dtree_node)} (h : ordered (mk cs)) :
    (cs.map Prod.fst).Pairwise (fun a b => a < b) ∧ ∀ e ∈ cs, ordered e.2 := by
  cases h with
  | mk _ h1 h2 => exact ⟨h1, h2⟩

theorem mem_of_map_at {c : Char} {l : List (Char × dtree_node)} {v : dtree_node}
    (h : map_at c l = some v) : (c, v) ∈ l := by
  induction l with
  | nil => simp [map_at] at h
  | cons x rest ih =>
    obtain ⟨k, w⟩ := x
    by_cases h1 : c = k
    · subst h1
      simp only [map_at, if_true, Option.some.injEq] at h
      subst h; simp
    · simp only [map_at, h1, if_false] at h
      simp [ih h]

theorem map_at_of_mem_sorted {c : Char} {l : List (Char × dtree_node)} {v : dtree_node}
    (hs : (l.map Prod.fst).Pairwise (fun a b => a < b)) (h : (c, v) ∈ l) :
    map_at c l = some v := by
  induction l with
  | nil => simp at h
  | cons x rest ih =>
    obtain ⟨k, w⟩ := x
    simp only [List.map_cons, List.pairwise_cons, List.mem_map, forall_exists_index,
      and_imp] at hs
    simp only [List.mem_cons, Prod.mk.injEq] at h
    rcases h with ⟨h1, h2⟩ | h
    · subst h1; subst h2; simp [map_at]
    · have hlt : k < c := hs.1 c (c, v) h rfl
      have : c ≠ k := (ne_of_lt hlt).symm
      simp only [map_at, this, if_false]
      exact ih hs.2 h

end dtree_node

theorem add_string_loop_idem (p : List Char) (n : dtree_node) :
    add_string_loop p (add_string_loop p n) = add_string_loop p n := by
  induction p generalizing n with
  | nil => simp [add_string_loop]
  | cons c cs ih =>
    simp [add_string_loop, map_index_idem c _ ih]

theorem add_string_loop_ordered (p : List Char) (n : dtree_node) (hn : ordered n) :
    ordered (add_string_loop p n) := by
  induction p generalizing n with
  | nil => simpa [add_string_loop] using hn
  | cons c cs ih =>
    obtain ⟨ch⟩ := n
    obtain ⟨h1, h2⟩ := ordered_children hn
    rw [add_string_loop]
    refine ordered.mk _ (map_index_sorted c _ _ h1) ?_
    intro e he
    rcases mem_map_index c _ _ e he with h | ⟨_, h | ⟨v, hv, h⟩⟩
    · exact h2 e h
    · rw [h]; exact ih _ ordered_nil
    · rw [h]; exact ih _ (h2 _ hv)

theorem follow_nil_node (p : List Char) : follow (mk []) p = p.length ↔ p = [] := by
  cases p with
  | nil => simp [follow]
  | cons c cs => simp [follow, child_ptr, map_at]

theorem follow_add_string_loop_iff (q : List Char) (n : dtree_node) (hn : ordered n)
    (p : List Char) :
    follow (add_string_loop q n) p = p.length ↔ (follow n p = p.length ∨ p <+: q) := by
  induction q generalizing n p with
  | nil =>
    simp only [add_string_loop, List.prefix_nil]
    constructor
    · exact Or.inl
    · rintro (h | h)
      · exact h
      · subst h; simp [follow]
  | cons c cs ih =>
    obtain ⟨ch⟩ := n
    obtain ⟨h1, h2⟩ := ordered_children hn
    cases p with
    | nil => simp [follow]
    | cons a p =>
      rw [add_string_loop]
      simp only [follow, child_ptr, m_children_mk, List.length_cons]
      by_cases hac : a = c
      · subst hac
        rw [map_at_map_index_sorted a _ _ h1]
        simp only [List.cons_prefix_cons, true_and]
        cases hm : map_at a ch with
        | none =>
          simp only [Option.getD_none]
          have := ih (mk []) ordered_nil p
          rw [follow_nil_node] at this
          constructor
          · intro h
            have h4 : follow (add_string_loop cs (mk [])) p = p.length := by omega
            rcases this.mp h4 with h5 | h5
            · subst h5; right; simp
            · exact Or.inr h5
          · rintro (h | h)
            · omega
            · have := this.mpr (Or.inr h); omega
        | some v =>
          simp only [Option.getD_some]
          have hv : ordered v := h2 _ (mem_of_map_at hm)
          have := ih v hv p
          constructor
          · intro h
            have h4 : follow (add_string_loop cs v) p = p.length := by omega
            rcases this.mp h4 with h5 | h5
            · left; omega
            · exact Or.inr h5
          · rintro (h | h)
            · have := this.mpr (Or.inl (by omega)); omega
            · have := this.mpr (Or.inr h); omega
      · rw [map_at_map_index_ne a c hac]
        simp [List.cons_prefix_cons, hac]

@[simp] theorem dtree.root_mk (n : dtree_node) : (dtree.mk n).root = n := rfl

theorem marker_prefix_iff (s w : List Char) (m : Char) (hw : m ∉ w) :
    s ++ [m] <+: w ++ [m] ↔ s = w := by
  constructor
  · rintro ⟨t, ht⟩
    rcases List.eq_nil_or_concat t with h | ⟨t0, x, h⟩
    · subst h
      simp only [List.append_nil] at ht
      exact (List.append_inj' ht rfl).1
    · subst h
      have h2 : (s ++ [m] ++ t0) ++ [x] = w ++ [m] := by
        simpa [List.append_assoc] using ht
      have h3 := (List.append_inj' h2 rfl).1
      exact absurd (by rw [← h3]; simp) hw
  · rintro rfl
    exact List.prefix_refl _

theorem add_word_fst (d : word_dict) (w : List Char) :
    (d.add_word w).1 = decide (tree_end_of_string_marker ∉ w) := by
  by_cases h : tree_end_of_string_marker ∈ w <;> simp [word_dict.add_word, add_string, h]

theorem add_word_snd_of_mem (d : word_dict) (w : List Char)
    (h : tree_end_of_string_marker ∈ w) : (d.add_word w).2 = d := by
  simp [word_dict.add_word, add_string, h]

theorem add_word_snd_of_not_mem (d : word_dict) (w : List Char)
    (h : tree_end_of_string_marker ∉ w) :
    (d.add_word w).2
      = ⟨⟨add_string_loop (w ++ [tree_end_of_string_marker]) d.m_words.root⟩⟩ := by
  simp [word_dict.add_word, add_string, h]

theorem add_word_ordered (d : word_dict) (w : List Char) (hd : ordered d.m_words.root) :
    ordered (d.add_word w).2.m_words.root := by
  by_cases h : tree_end_of_string_marker ∈ w
  · rw [add_word_snd_of_mem d w h]; exact hd
  · rw [add_word_snd_of_not_mem d w h]
    exact add_string_loop_ordered _ _ hd

theorem add_words_ordered (d : word_dict) (ws : List (List Char))
    (hd : ordered d.m_words.root) : ordered (add_words d ws).m_words.root := by
  induction ws generalizing d with
  | nil => exact hd
  | cons w ws ih =>
    simp only [add_words, List.foldl_cons]
    exact ih _ (add_word_ordered d w hd)

theorem empty_ordered : ordered word_dict.empty.m_words.root := ordered_nil

theorem accepted_words_eq (d : word_dict) (ws : List (List Char)) :
    accepted_words d ws = ws.filter (fun w => decide (tree_end_of_string_marker ∉ w)) := by
  induction ws generalizing d with
  | nil => rfl
  | cons w ws ih =>
    simp only [accepted_words, add_word_fst, ih, List.filter_cons]

theorem mem_accepted_words (d : word_dict) (ws : List (List Char)) (s : List Char) :
    s ∈ accepted_words d ws ↔ s ∈ ws ∧ tree_end_of_string_marker ∉ s := by
  simp [accepted_words_eq]

theorem add_words_cons (d : word_dict) (w : List Char) (ws : List (List Char)) :
    add_words d (w :: ws) = add_words (d.add_word w).2 ws := rfl

theorem follow_add_words_iff (d : word_dict) (ws : List (List Char))
    (hd : ordered d.m_words.root) (s : List Char) :
    follow (add_words d ws).m_words.root (s ++ [tree_end_of_string_marker]) = s.length + 1 ↔
      (follow d.m_words.root (s ++ [tree_end_of_string_marker]) = s.length + 1
        ∨ s ∈ accepted_words d ws) := by
  induction ws generalizing d with
  | nil => simp [add_words, accepted_words]
  | cons w ws ih =>
    rw [add_words_cons, ih _ (add_word_ordered d w hd)]
    simp only [mem_accepted_words, List.mem_cons]
    by_cases h : tree_end_of_string_marker ∈ w
    · rw [add_word_snd_of_mem d w h]
      constructor
      · rintro (h1 | ⟨h1, h2⟩)
        · exact Or.inl h1
        · exact Or.inr ⟨Or.inr h1, h2⟩
      · rintro (h1 | ⟨h1 | h1, h2⟩)
        · exact Or.inl h1
        · subst h1; exact absurd h h2
        · exact Or.inr ⟨h1, h2⟩
    · rw [add_word_snd_of_not_mem d w h]
      have key := follow_add_string_loop_iff (w ++ [tree_end_of_string_marker])
        d.m_words.root hd (s ++ [tree_end_of_string_marker])
      simp only [List.length_append, List.length_singleton] at key
      simp only [dtree.root_mk]
      rw [key, marker_prefix_iff s w _ h]
      constructor
      · rintro ((h1 | h1) | ⟨h1, h2⟩)
        · exact Or.inl h1
        · subst h1; exact Or.inr ⟨Or.inl rfl, h⟩
        · exact Or.inr ⟨Or.inr h1, h2⟩
      · rintro (h1 | ⟨h1 | h1, h2⟩)
        · exact Or.inl (Or.inl h1)
        · exact Or.inl (Or.inr h1)
        · exact Or.inr ⟨h1, h2⟩

theorem follow_empty (p : List Char) (hp : p ≠ []) :
    follow word_dict.empty.m_words.root p ≠ p.length := by
  intro h
  exact hp ((follow_nil_node p).mp h)

/-- Claim C2 (marker rejection): on every dictionary, `add_word` of a string that
contains the end-of-word marker returns false and leaves the dictionary as it was, so
`fetch_words` returns the same sequence before and after. -/
theorem C2_marker_rejection (d : word_dict) (s : List Char)
    (h : word_dict.end_of_word_marker ∈ s) :
    (d.add_word s).1 = false ∧ (d.add_word s).2 = d ∧
      (d.add_word s).2.fetch_words = d.fetch_words := by
  have h0 : tree_end_of_string_marker ∈ s := h
  refine ⟨by simp [add_word_fst, h0], add_word_snd_of_mem d s h0, ?_⟩
  rw [add_word_snd_of_mem d s h0]

theorem C2_marker_rejection_witness :
    word_dict.end_of_word_marker ∈ "a$b".toList ∧
      ((add_words word_dict.empty ["a".toList]).add_word "a$b".toList).1 = false ∧
      ((add_words word_dict.empty ["a".toList]).add_word "a$b".toList).2
        = add_words word_dict.empty ["a".toList] ∧
      ((add_words word_dict.empty ["a".toList]).add_word "a$b".toList).2.fetch_words
        = (add_words word_dict.empty ["a".toList]).fetch_words :=
  ⟨by decide, C2_marker_rejection (add_words word_dict.empty ["a".toList]) "a$b".toList
    (by decide)⟩

/-- Claim C3 (idempotent insertion): on every dictionary and for every string without
the marker, a second `add_word` of the string returns true and leaves the dictionary
equal to the one after the first call, so `fetch_words` is the same after inserting the
string twice as after inserting it once. -/
theorem C3_idempotent_insertion (d : word_dict) (s : List Char)
    (h : word_dict.end_of_word_marker ∉ s) :
    ((d.add_word s).2.add_word s).1 = true ∧
      ((d.add_word s).2.add_word s).2 = (d.add_word s).2 ∧
      ((d.add_word s).2.add_word s).2.fetch_words = (d.add_word s).2.fetch_words := by
  have h0 : tree_end_of_string_marker ∉ s := h
  have heq : ((d.add_word s).2.add_word s).2 = (d.add_word s).2 := by
    rw [add_word_snd_of_not_mem _ s h0, add_word_snd_of_not_mem d s h0]
    simp [add_string_loop_idem]
  exact ⟨by simp [add_word_fst, h0], heq, by rw [heq]⟩

theorem C3_idempotent_insertion_witness :
    word_dict.end_of_word_marker ∉ "aaaa".toList ∧
      ((word_dict.empty.add_word "aaaa".toList).2.add_word "aaaa".toList).1 = true ∧
      ((word_dict.empty.add_word "aaaa".toList).2.add_word "aaaa".toList).2
        = (word_dict.empty.add_word "aaaa".toList).2 ∧
      ((word_dict.empty.add_word "aaaa".toList).2.add_word "aaaa".toList).2.fetch_words
        = (word_dict.empty.add_word "aaaa".toList).2.fetch_words :=
  ⟨by decide, C3_idempotent_insertion word_dict.empty "aaaa".toList (by decide)⟩

theorem walk_snoc {root n m : dtree_node} {p : List Char} {c : Char}
    (h : walk root p n) (hc : (c, m) ∈ n.m_children) : walk root (p ++ [c]) m := by
  induction h with
  | nil n => exact walk.cons hc (walk.nil m)
  | cons h1 _ ih => exact walk.cons h1 (ih hc)

theorem subst_distance_cons (a b : Char) (as bs : List Char) :
    subst_distance (a :: as) (b :: bs) = (if a = b then 0 else 1) + subst_distance as bs := rfl

theorem subst_distance_snoc (p s : List Char) (c : Char) (h : p.length < s.length) :
    subst_distance (p ++ [c]) s
      = subst_distance p s + (if s[p.length] = c then 0 else 1) := by
  induction p generalizing s with
  | nil =>
    cases s with
    | nil => simp at h
    | cons b bs =>
      rw [List.nil_append, subst_distance_cons]
      by_cases hb : c = b
      · subst hb; simp [subst_distance]
      · have : ¬ b = c := fun h => hb h.symm
        simp [hb, this, subst_distance]
  | cons a as ih =>
    cases s with
    | nil => simp at h
    | cons b bs =>
      simp only [List.length_cons, Nat.add_lt_add_iff_right] at h
      rw [List.cons_append, subst_distance_cons, subst_distance_cons, ih bs h]
      simp only [List.length_cons, List.getElem_cons_succ]
      omega

theorem size_pos (n : dtree_node) : 0 < n.size := by
  cases n with
  | mk cs => simp [size]

theorem subst_stack_size_push (prev : subst_entry) (x : Char)
    (cs : List (Char × dtree_node)) (stack : List subst_entry) :
    subst_stack_size ((cs.map (subst_succ prev x)).reverse ++ stack)
      = size_children cs + subst_stack_size stack := by
  induction cs with
  | nil => simp [size_children]
  | cons e rest ih =>
    obtain ⟨k, v⟩ := e
    simp only [subst_stack_size, List.map_cons, List.reverse_cons, List.map_append,
      List.map_reverse, List.sum_append, List.sum_reverse, List.sum_cons, List.sum_nil,
      List.map_nil, List.map_map, size_children, subst_succ] at ih ⊢
    omega

theorem subst_visit_spec (s_len k : Nat) (prev : subst_entry) (x : Char)
    (cs : List (Char × dtree_node)) (vars : search_vars) (stack : List subst_entry) :
    ((∃ child, (x, child) ∈ cs) ∧ prev.nb_chars_read + 1 = s_len ∧ prev.subst_cost ≤ k ∧
        (subst_visit s_len k prev x cs vars stack).1
          = ⟨true, prev.read_string ++ [x], prev.subst_cost⟩)
    ∨ ((∀ child, (x, child) ∈ cs → ¬ (prev.nb_chars_read + 1 = s_len ∧ prev.subst_cost ≤ k)) ∧
        (subst_visit s_len k prev x cs vars stack).1 = vars ∧
        (subst_visit s_len k prev x cs vars stack).2
          = (if prev.nb_chars_read + 1 < s_len then (cs.map (subst_succ prev x)).reverse
              else []) ++ stack) := by
  induction cs generalizing stack with
  | nil => right; simp [subst_visit]
  | cons e rest ih =>
    obtain ⟨first, second⟩ := e
    by_cases h1 : x = first
    · subst h1
      by_cases h2 : prev.nb_chars_read + 1 = s_len
      · by_cases h3 : prev.subst_cost ≤ k
        · left
          have hv : subst_visit s_len k prev x ((x, second) :: rest) vars stack
              = (⟨true, prev.read_string ++ [x], prev.subst_cost⟩, stack) := by
            rw [subst_visit]; simp [h2, h3]
          rw [hv]
          exact ⟨⟨second, by simp⟩, h2, h3, rfl⟩
        · have hv : subst_visit s_len k prev x ((x, second) :: rest) vars stack
              = subst_visit s_len k prev x rest vars stack := by
            rw [subst_visit]; simp [h2, h3]
          rw [hv]
          rcases ih stack with ⟨⟨c, hc⟩, _, h5, _⟩ | ⟨h4, h5, h6⟩
          · exact absurd h5 h3
          · right
            refine ⟨fun _ _ hh => h3 hh.2, h5, ?_⟩
            rw [h6]; simp [h2]
      · by_cases h3 : prev.nb_chars_read + 1 < s_len
        · have hv : subst_visit s_len k prev x ((x, second) :: rest) vars stack
              = subst_visit s_len k prev x rest vars
                  (subst_succ prev x (x, second) :: stack) := by
            rw [subst_visit]; simp [h2, h3, subst_succ]
          rw [hv]
          rcases ih (subst_succ prev x (x, second) :: stack) with ⟨_, h5, _⟩ | ⟨h4, h5, h6⟩
          · exact absurd h5 h2
          · right
            refine ⟨fun _ _ hh => h2 hh.1, h5, ?_⟩
            rw [h6]; simp [h3]
        · have hv : subst_visit s_len k prev x ((x, second) :: rest) vars stack
              = subst_visit s_len k prev x rest vars stack := by
            rw [subst_visit]; simp [h2, h3]
          rw [hv]
          rcases ih stack with ⟨_, h5, _⟩ | ⟨h4, h5, h6⟩
          · exact absurd h5 h2
          · right
            refine ⟨fun _ _ hh => h2 hh.1, h5, ?_⟩
            rw [h6]; simp [h3]
    · by_cases h3 : prev.nb_chars_read + 1 < s_len
      · have hv : subst_visit s_len k prev x ((first, second) :: rest) vars stack
            = subst_visit s_len k prev x rest vars
                (subst_succ prev x (first, second) :: stack) := by
          rw [subst_visit]; simp [h1, h3, subst_succ]
        rw [hv]
        rcases ih (subst_succ prev x (first, second) :: stack) with
          ⟨_, h5, _⟩ | ⟨h4, h5, h6⟩
        · omega
        · right
          refine ⟨fun _ _ hh => by omega, h5, ?_⟩
          rw [h6]; simp [h3]
      · have hv : subst_visit s_len k prev x ((first, second) :: rest) vars stack
            = subst_visit s_len k prev x rest vars stack := by
          rw [subst_visit]; simp [h1, h3]
        rw [hv]
        rcases ih stack with ⟨⟨c, hc⟩, h5, h7, h8⟩ | ⟨h4, h5, h6⟩
        · left
          exact ⟨⟨c, by simp [hc]⟩, h5, h7, h8⟩
        · right
          refine ⟨?_, h5, ?_⟩
          · intro child hchild
            simp only [List.mem_cons, Prod.mk.injEq] at hchild
            rcases hchild with ⟨hh, _⟩ | hchild
            · exact absurd hh h1
            · exact h4 child hchild
          · rw [h6]; simp [h3]

theorem subst_loop_spec (s : List Char) (k : Nat) (root : dtree_node) (fuel : Nat)
    (stack : List subst_entry) (hinv : ∀ e ∈ stack, subst_inv s root e)
    (hfuel : subst_stack_size stack < fuel) :
    ∃ vars, subst_loop s s.length k fuel search_vars.init stack = .ok vars ∧
      ((vars.s_matched = true ∧ ∃ p c, subst_goal s root p c ∧
          vars.s_matched_string = p ++ [c] ∧
          vars.s_matched_string_cost = subst_distance p s ∧ subst_distance p s ≤ k)
        ∨ (vars = search_vars.init ∧ ∀ e ∈ stack, ∀ q n c child, walk e.node q n →
            (c, child) ∈ n.m_children → s[(e.read_string ++ q).length]? = some c →
            (e.read_string ++ q).length + 1 = s.length →
            ¬ subst_distance (e.read_string ++ q) s ≤ k)) := by
  induction fuel generalizing stack with
  | zero => omega
  | succ fuel ih =>
    cases stack with
    | nil =>
      refine ⟨search_vars.init, by simp [subst_loop, search_vars.init], Or.inr ⟨rfl, ?_⟩⟩
      simp
    | cons e rest =>
      obtain ⟨hw, hnb, hlt, hcost⟩ := hinv e (by simp)
      have hsz : subst_stack_size (e :: rest) = e.node.size + subst_stack_size rest := by
        simp [subst_stack_size]
      have hnode : e.node.size = 1 + size_children e.node.m_children := by
        cases e.node with
        | mk cs => simp [size]
      have hstep : subst_loop s s.length k (fuel + 1) search_vars.init (e :: rest)
          = subst_loop s s.length k fuel
              (subst_visit s.length k e s[e.nb_chars_read] e.node.m_children
                search_vars.init rest).1
              (subst_visit s.length k e s[e.nb_chars_read] e.node.m_children
                search_vars.init rest).2 := by
        rw [subst_loop]
        simp [search_vars.init, checked_at_of_lt s _ hlt]
      rw [hstep]
      have hx : s[e.read_string.length]? = some s[e.nb_chars_read] := by
        rw [List.getElem?_eq_getElem (by omega)]; simp [hnb]
      rcases subst_visit_spec s.length k e s[e.nb_chars_read] e.node.m_children
          search_vars.init rest with ⟨⟨child, hchild⟩, h1, h2, h3⟩ | ⟨h1, h2, h3⟩
      · -- a match is found among the children
        rw [h3]
        have hf : 0 < fuel := by omega
        obtain ⟨f, rfl⟩ : ∃ f, fuel = f + 1 := ⟨fuel - 1, by omega⟩
        refine ⟨⟨true, e.read_string ++ [s[e.nb_chars_read]], e.subst_cost⟩,
          by simp [subst_loop], Or.inl ⟨rfl, e.read_string, s[e.nb_chars_read], ?_, rfl,
          hcost, ?_⟩⟩
        · exact ⟨e.node, child, hw, hchild, hx, by omega⟩
        · rw [← hcost]; exact h2
      · rw [h2, h3]
        have hinv2 : ∀ e2 ∈ (if e.nb_chars_read + 1 < s.length then
            (e.node.m_children.map (subst_succ e s[e.nb_chars_read])).reverse else [])
              ++ rest, subst_inv s root e2 := by
          intro e2 he2
          rw [List.mem_append] at he2
          rcases he2 with he2 | he2
          · by_cases h4 : e.nb_chars_read + 1 < s.length
            · rw [if_pos h4] at he2
              simp only [List.mem_reverse, List.mem_map] at he2
              obtain ⟨⟨c, m⟩, hm, rfl⟩ := he2
              refine ⟨walk_snoc hw hm, by simp [subst_succ, hnb], h4, ?_⟩
              simp only [subst_succ]
              rw [subst_distance_snoc _ _ _ (by omega), hcost]
              simp [hnb]
            · rw [if_neg h4] at he2; simp at he2
          · exact hinv e2 (by simp [he2])
        have hfuel2 : subst_stack_size ((if e.nb_chars_read + 1 < s.length then
            (e.node.m_children.map (subst_succ e s[e.nb_chars_read])).reverse else [])
              ++ rest) < fuel := by
          by_cases h4 : e.nb_chars_read + 1 < s.length
          · rw [if_pos h4, subst_stack_size_push]; omega
          · rw [if_neg h4]; simp only [List.nil_append]; omega
        obtain ⟨vars, hv, hres⟩ := ih _ hinv2 hfuel2
        refine ⟨vars, hv, ?_⟩
        rcases hres with hres | ⟨hres1, hres2⟩
        · exact Or.inl hres
        · refine Or.inr ⟨hres1, ?_⟩
          intro e2 he2 q n c child hwalk hc hs hl
          simp only [List.mem_cons] at he2
          rcases he2 with rfl | he2
          · cases hwalk with
            | nil =>
              simp only [List.append_nil] at hs hl ⊢
              intro hd
              rw [hx] at hs
              simp only [Option.some.injEq] at hs
              subst hs
              exact h1 child hc ⟨by omega, by rw [hcost]; exact hd⟩
            | @cons _ m _ c2 q2 hm hwalk2 =>
              have h4 : e2.nb_chars_read + 1 < s.length := by
                simp only [List.length_append, List.length_cons] at hl; omega
              have := hres2 (subst_succ e2 s[e2.nb_chars_read] (c2, m))
                (by simp only [if_pos h4, List.mem_append, List.mem_reverse, List.mem_map]
                    exact Or.inl ⟨(c2, m), hm, rfl⟩)
                q2 n c child hwalk2 hc
              simp only [subst_succ, List.append_assoc, List.singleton_append] at this
              exact this hs hl
          · exact hres2 e2 (by simp [he2]) q n c child hwalk hc hs hl

theorem subst_distance_append_right (p s t : List Char) (h : p.length ≤ s.length) :
    subst_distance p (s ++ t) = subst_distance p s := by
  induction p generalizing s with
  | nil => simp [subst_distance]
  | cons a as ih =>
    cases s with
    | nil => simp at h
    | cons b bs =>
      simp only [List.length_cons, Nat.add_le_add_iff_right] at h
      rw [List.cons_append, subst_distance_cons, subst_distance_cons, ih bs h]

theorem subst_goal_iff (str : List Char) (root : dtree_node) (p : List Char) (c : Char) :
    subst_goal (str ++ [tree_end_of_string_marker]) root p c ↔
      (stored root p ∧ p.length = str.length ∧ c = tree_end_of_string_marker) := by
  constructor
  · rintro ⟨n, child, hw, hc, hs, hl⟩
    have hl2 : p.length = str.length := by simpa using hl
    rw [hl2] at hs
    simp only [List.getElem?_concat_length, Option.some.injEq] at hs
    subst hs
    exact ⟨⟨n, child, hw, hc⟩, hl2, rfl⟩
  · rintro ⟨⟨n, child, hw, hc⟩, hl, rfl⟩
    refine ⟨n, child, hw, hc, ?_, by simp [hl]⟩
    rw [hl]; simp

/-- The outcome of the while loop of `match_string_allow_substitution` run from the
root, on any tree. -/
theorem subst_search_spec (tree : dtree) (str : List Char) (k : Nat) :
    ∃ vars, subst_search tree str k = .ok vars ∧
      (vars.s_matched = true ↔
        ∃ p, stored tree.root p ∧ p.length = str.length ∧ subst_distance p str ≤ k) ∧
      (vars.s_matched = true →
        ∃ p, stored tree.root p ∧ p.length = str.length ∧
          vars.s_matched_string = p ++ [tree_end_of_string_marker] ∧
          vars.s_matched_string_cost = subst_distance p str ∧ subst_distance p str ≤ k) := by
  obtain ⟨vars, hv, hres⟩ := subst_loop_spec (str ++ [tree_end_of_string_marker]) k
    tree.root (tree.root.size + 1) [⟨tree.root, [], 0, 0⟩]
    (by
      intro e he
      simp only [List.mem_singleton] at he
      subst he
      exact ⟨walk.nil _, rfl, by simp, by simp [subst_distance]⟩)
    (by simp [subst_stack_size])
  refine ⟨vars, by simpa [subst_search] using hv, ?_⟩
  rcases hres with ⟨hm, p, c, hg, hstr, hcost, hk⟩ | ⟨hinit, hno⟩
  · rw [subst_goal_iff] at hg
    obtain ⟨hst, hl, rfl⟩ := hg
    rw [subst_distance_append_right p str _ (by omega)] at hcost hk
    exact ⟨⟨fun _ => ⟨p, hst, hl, hk⟩, fun _ => hm⟩, fun _ => ⟨p, hst, hl, hstr, hcost, hk⟩⟩
  · subst hinit
    have hfalse : ¬ ∃ p, stored tree.root p ∧ p.length = str.length ∧
        subst_distance p str ≤ k := by
      rintro ⟨p, ⟨n, child, hw, hc⟩, hl, hk⟩
      refine hno _ (List.mem_singleton.mpr rfl) p n _ child hw hc ?_ ?_ ?_
      · simp only [List.nil_append, hl, List.getElem?_concat_length]
      · simp [hl]
      · simp only [List.nil_append]
        rw [subst_distance_append_right p str _ (by omega)]
        exact hk
    refine ⟨⟨fun h => ?_, fun h => absurd h hfalse⟩, fun h => ?_⟩ <;>
      simp [search_vars.init] at h

/-- The value returned by `match_string_allow_substitution` on any tree. -/
theorem match_string_allow_substitution_spec (tree : dtree) (str : List Char) (k : Nat) :
    ∃ vars md, subst_search tree str k = .ok vars ∧
      match_string_allow_substitution tree str k = .ok md ∧
      md.source = str ∧ md.success = vars.s_matched ∧
      (md.success = true ↔
        ∃ p, stored tree.root p ∧ p.length = str.length ∧ subst_distance p str ≤ k) ∧
      (md.success = true →
        ∃ p, stored tree.root p ∧ p.length = str.length ∧ subst_distance p str ≤ k ∧
          vars.s_matched_string = p ++ [tree_end_of_string_marker] ∧
          vars.s_matched_string_cost = subst_distance p str ∧
          md.message = "\"".toList ++ (str ++ [tree_end_of_string_marker])
            ++ "\" matched successfully with \"".toList
            ++ (p ++ [tree_end_of_string_marker]) ++ "\" using ".toList
            ++ to_string (subst_distance p str) ++ " substs".toList) := by
  obtain ⟨vars, hv, hiff, hrep⟩ := subst_search_spec tree str k
  refine ⟨vars, ?_⟩
  simp only [match_string_allow_substitution, hv, match_data.set]
  cases hm : vars.s_matched with
  | false =>
    refine ⟨_, trivial, rfl, rfl, rfl, ?_, ?_⟩
    · rw [← hiff, hm]
    · simp
  | true =>
    obtain ⟨p, hst, hl, hstr, hcost, hk⟩ := hrep hm
    refine ⟨_, trivial, rfl, rfl, rfl, ?_, ?_⟩
    · rw [← hiff, hm]
    · intro _
      refine ⟨p, hst, hl, hk, hstr, hcost, ?_⟩
      simp [hstr, hcost]

theorem walk_snoc_iff (root m : dtree_node) (p : List Char) (c : Char) :
    walk root (p ++ [c]) m ↔ ∃ n, walk root p n ∧ (c, m) ∈ n.m_children := by
  constructor
  · intro h
    induction p generalizing root with
    | nil =>
      cases h with
      | cons h1 h2 =>
        cases h2
        exact ⟨root, walk.nil _, h1⟩
    | cons a as ih =>
      cases h with
      | cons h1 h2 =>
        obtain ⟨n, hn, hc⟩ := ih _ h2
        exact ⟨n, walk.cons h1 hn, hc⟩
  · rintro ⟨n, hn, hc⟩
    exact walk_snoc hn hc

theorem follow_eq_length_iff_walk (n : dtree_node) (hn : ordered n) (p : List Char) :
    follow n p = p.length ↔ ∃ m, walk n p m := by
  induction p generalizing n with
  | nil => simp only [follow, List.length_nil, true_iff]; exact ⟨n, walk.nil n⟩
  | cons c cs ih =>
    obtain ⟨ch⟩ := n
    obtain ⟨h1, h2⟩ := ordered_children hn
    simp only [follow, child_ptr, m_children_mk, List.length_cons]
    constructor
    · intro h
      cases hm : map_at c ch with
      | none => rw [hm] at h; simp at h
      | some m =>
        rw [hm] at h
        have hmem := mem_of_map_at hm
        obtain ⟨q, hq⟩ := (ih m (h2 _ hmem)).mp (by simp only [] at h; omega)
        exact ⟨q, walk.cons hmem hq⟩
    · rintro ⟨q, hq⟩
      cases hq with
      | @cons _ m _ _ _ hmem hwalk =>
        simp only [m_children_mk] at hmem
        rw [map_at_of_mem_sorted h1 hmem]
        have := (ih m (h2 _ hmem)).mpr ⟨q, hwalk⟩
        simp only []; omega

theorem stored_iff_follow (n : dtree_node) (hn : ordered n) (p : List Char) :
    stored n p ↔ follow n (p ++ [tree_end_of_string_marker]) = p.length + 1 := by
  have := follow_eq_length_iff_walk n hn (p ++ [tree_end_of_string_marker])
  simp only [List.length_append, List.length_singleton] at this
  rw [this]
  constructor
  · rintro ⟨m, child, hw, hc⟩
    exact ⟨child, walk_snoc hw hc⟩
  · rintro ⟨m, hm⟩
    obtain ⟨n2, hw, hc⟩ := (walk_snoc_iff _ _ _ _).mp hm
    exact ⟨n2, m, hw, hc⟩

/-- The stored strings of a dictionary built by `add_words` from the empty dictionary
are the accepted words. -/
theorem stored_add_words_iff (words : List (List Char)) (p : List Char) :
    stored (add_words word_dict.empty words).m_words.root p ↔
      p ∈ accepted_words word_dict.empty words := by
  rw [stored_iff_follow _ (add_words_ordered _ _ empty_ordered),
    follow_add_words_iff _ _ empty_ordered]
  have := follow_empty (p ++ [tree_end_of_string_marker]) (by simp)
  simp only [List.length_append, List.length_singleton] at this
  simp [this]

theorem lev_nil_left (ys : List Char) : lev_distance [] ys = ys.length := by
  induction ys with
  | nil => simp [lev_distance]
  | cons y ys ih =>
    simp only [lev_distance, levenshtein_nil_cons, Levenshtein.defaultCost_insert,
      List.length_cons] at ih ⊢
    omega

theorem lev_nil_right (xs : List Char) : lev_distance xs [] = xs.length := by
  induction xs with
  | nil => simp [lev_distance]
  | cons x xs ih =>
    simp only [lev_distance, levenshtein_cons_nil, Levenshtein.defaultCost_delete,
      List.length_cons] at ih ⊢
    omega

theorem lev_cons_cons (x y : Char) (xs ys : List Char) :
    lev_distance (x :: xs) (y :: ys)
      = min (lev_distance xs (y :: ys) + 1)
          (min (lev_distance (x :: xs) ys + 1)
            (lev_distance xs ys + (if x = y then 0 else 1))) := by
  simp only [lev_distance, levenshtein_cons_cons, Levenshtein.defaultCost_delete,
    Levenshtein.defaultCost_insert, Levenshtein.defaultCost_substitute]
  simp only [Nat.add_comm]

theorem lev_snoc_snoc (xs ys : List Char) (a b : Char) :
    lev_distance (xs ++ [a]) (ys ++ [b])
      = min (lev_distance xs (ys ++ [b]) + 1)
          (min (lev_distance (xs ++ [a]) ys + 1)
            (lev_distance xs ys + (if a = b then 0 else 1))) := by
  induction xs generalizing ys with
  | nil =>
    induction ys with
    | nil =>
      simp only [List.nil_append]
      rw [lev_cons_cons]
    | cons y ys ih =>
      simp only [List.nil_append, List.cons_append] at ih ⊢
      rw [lev_cons_cons a y [] (ys ++ [b]), ih, lev_cons_cons a y [] ys]
      simp only [lev_nil_left, List.length_cons, List.length_append, List.length_singleton,
        List.length_nil]
      generalize lev_distance [a] ys = t
      clear ih
      split_ifs <;> omega
  | cons x xs ihx =>
    induction ys with
    | nil =>
      have h1 := ihx []
      simp only [List.nil_append, List.cons_append] at h1 ⊢
      rw [lev_cons_cons x b (xs ++ [a]) [], h1, lev_cons_cons x b xs []]
      simp only [lev_nil_right, List.length_cons, List.length_append, List.length_singleton,
        List.length_nil]
      generalize lev_distance xs [b] = t
      clear h1 ihx
      split_ifs <;> omega
    | cons y ys ihy =>
      have h1 := ihx (y :: ys)
      have h3 := ihx ys
      simp only [List.cons_append] at h1 h3 ihy ⊢
      rw [lev_cons_cons x y (xs ++ [a]) (ys ++ [b]), h1, ihy, h3,
        lev_cons_cons x y xs (ys ++ [b]), lev_cons_cons x y (xs ++ [a]) ys,
        lev_cons_cons x y xs ys]
      generalize lev_distance xs (y :: (ys ++ [b])) = u1
      generalize lev_distance (xs ++ [a]) (y :: ys) = u2
      generalize lev_distance xs (y :: ys) = u3
      generalize lev_distance (x :: xs) (ys ++ [b]) = u4
      generalize lev_distance (x :: (xs ++ [a])) ys = u5
      generalize lev_distance (x :: xs) ys = u6
      generalize lev_distance xs (ys ++ [b]) = u7
      generalize lev_distance (xs ++ [a]) ys = u8
      generalize lev_distance xs ys = u9
      split_ifs <;>
        simp only [← Nat.add_min_add_right, Nat.add_zero, Nat.add_assoc, Nat.reduceAdd] <;>
        ac_rfl

theorem lev_le_snoc_right (xs ys : List Char) (b : Char) :
    lev_distance xs ys ≤ lev_distance xs (ys ++ [b]) + 1 := by
  induction xs generalizing ys with
  | nil => simp only [lev_nil_left, List.length_append, List.length_singleton]; omega
  | cons x xs ihx =>
    induction ys with
    | nil =>
      have h1 := ihx []
      simp only [List.nil_append, lev_nil_right] at h1 ⊢
      rw [lev_cons_cons]
      simp only [lev_nil_right, List.length_cons]
      split_ifs <;> omega
    | cons y ys ihy =>
      have h1 := ihx (y :: ys)
      have h3 := ihx ys
      simp only [List.cons_append] at h1 h3 ihy ⊢
      rw [lev_cons_cons x y xs (ys ++ [b]), lev_cons_cons x y xs ys]
      split_ifs <;> omega

theorem lev_le_snoc_left (xs ys : List Char) (a : Char) :
    lev_distance xs ys ≤ lev_distance (xs ++ [a]) ys + 1 := by
  induction xs generalizing ys with
  | nil =>
    induction ys with
    | nil => simp [lev_nil_left]
    | cons y ys ihy =>
      simp only [List.nil_append] at ihy ⊢
      rw [lev_cons_cons]
      simp only [lev_nil_left, List.length_cons] at ihy ⊢
      split_ifs <;> omega
  | cons x xs ihx =>
    induction ys with
    | nil => simp [lev_nil_right]
    | cons y ys ihy =>
      have h1 := ihx (y :: ys)
      have h3 := ihx ys
      simp only [List.cons_append] at h1 h3 ihy ⊢
      rw [lev_cons_cons x y (xs ++ [a]) ys, lev_cons_cons x y xs ys]
      split_ifs <;> omega

/-- Appending the same character to both strings leaves the distance unchanged. -/
theorem lev_snoc_same (xs ys : List Char) (c : Char) :
    lev_distance (xs ++ [c]) (ys ++ [c]) = lev_distance xs ys := by
  rw [lev_snoc_snoc]
  have h1 := lev_le_snoc_right xs ys c
  have h2 := lev_le_snoc_left xs ys c
  simp only [if_true]
  omega

theorem lev_row_of_length (s acc : List Char) : (lev_row_of s acc).length = s.length + 1 := by
  simp [lev_row_of]

theorem lev_row_of_getElem (s acc : List Char) (i : Nat) (h : i < (lev_row_of s acc).length) :
    (lev_row_of s acc)[i] = lev_distance acc (s.take i) := by
  simp [lev_row_of]

theorem lev_row_of_nil (s : List Char) : lev_row_of s [] = List.range (s.length + 1) := by
  apply List.ext_getElem
  · simp [lev_row_of]
  · intro i h1 h2
    simp only [lev_row_of, List.length_map, List.length_range] at h1
    simp only [lev_row_of, List.getElem_map, List.getElem_range, lev_nil_left,
      List.length_take]
    omega

theorem take_succ_eq_snoc (s : List Char) (j : Nat) (h : j < s.length) :
    s.take (j + 1) = s.take j ++ [s[j]] := by
  rw [List.take_succ, List.getElem?_eq_getElem h]; rfl

theorem lev_row_loop_spec (s acc : List Char) (c : Char) (m j : Nat)
    (hjm : j + 1 + m = s.length + 1) :
    lev_row_loop s c (lev_row_of s acc) (List.range' (j + 1) m)
        ((List.range (j + 1)).map (fun i => lev_distance (acc ++ [c]) (s.take i)))
      = .ok (lev_row_of s (acc ++ [c])) := by
  induction m generalizing j with
  | zero =>
    have : j + 1 = s.length + 1 := by omega
    simp only [List.range'_zero, lev_row_loop, this, lev_row_of]
  | succ m ih =>
    have hj : j < s.length := by omega
    rw [List.range'_succ, lev_row_loop]
    have h1 : checked_at ((List.range (j + 1)).map
        (fun i => lev_distance (acc ++ [c]) (s.take i))) (j + 1 - 1)
        = .ok (lev_distance (acc ++ [c]) (s.take j)) := by
      rw [checked_at_of_lt _ _ (by simp)]; simp
    have h2 : checked_at (lev_row_of s acc) (j + 1)
        = .ok (lev_distance acc (s.take (j + 1))) := by
      rw [checked_at_of_lt _ _ (by rw [lev_row_of_length]; omega), lev_row_of_getElem]
    have h3 : checked_at (lev_row_of s acc) (j + 1 - 1)
        = .ok (lev_distance acc (s.take j)) := by
      rw [checked_at_of_lt _ _ (by rw [lev_row_of_length]; omega), lev_row_of_getElem]; simp
    have h4 : checked_at s (j + 1 - 1) = .ok s[j] := by
      rw [checked_at_of_lt _ _ (by simpa using hj)]; simp
    rw [h1, h2, h3, h4]
    simp only []
    have hnew : min (lev_distance (acc ++ [c]) (s.take j) + 1)
        (min (lev_distance acc (s.take (j + 1)) + 1)
          (lev_distance acc (s.take j) + (if c = s[j] then 0 else 1)))
        = lev_distance (acc ++ [c]) (s.take (j + 1)) := by
      rw [take_succ_eq_snoc s j hj, lev_snoc_snoc]
      ac_rfl
    rw [hnew]
    have hcurr : (List.range (j + 1)).map (fun i => lev_distance (acc ++ [c]) (s.take i))
        ++ [lev_distance (acc ++ [c]) (s.take (j + 1))]
        = (List.range (j + 1 + 1)).map (fun i => lev_distance (acc ++ [c]) (s.take i)) := by
      rw [List.range_succ (j + 1)]; simp
    rw [hcurr]
    exact ih (j + 1) (by omega)

/-- The row computed for an edge is the row of the string extended by its label. -/
theorem lev_row_spec (s acc : List Char) (c : Char) :
    lev_row s c (lev_row_of s acc) = .ok (lev_row_of s (acc ++ [c])) := by
  rw [lev_row, checked_at_of_lt _ _ (by rw [lev_row_of_length]; omega)]
  simp only [lev_row_of_getElem, List.take_zero, lev_nil_right, lev_row_of_length,
    Nat.add_sub_cancel]
  have := lev_row_loop_spec s acc c s.length 0 (by omega)
  have hr : List.range 1 = [0] := rfl
  simp only [Nat.zero_add, hr, List.map_cons, List.map_nil, List.take_zero,
    lev_nil_right, List.length_append, List.length_singleton] at this
  exact this

theorem foldl_min_spec (rest : List Nat) (a : Nat) :
    (∀ x ∈ a :: rest, rest.foldl (fun m x => if x < m then x else m) a ≤ x) ∧
      rest.foldl (fun m x => if x < m then x else m) a ∈ a :: rest := by
  induction rest generalizing a with
  | nil => simp
  | cons b rest ih =>
    simp only [List.foldl_cons]
    have hm : (if b < a then b else a) ≤ a ∧ (if b < a then b else a) ≤ b ∧
        ((if b < a then b else a) = a ∨ (if b < a then b else a) = b) := by
      split_ifs <;> omega
    generalize (if b < a then b else a) = m0 at hm
    obtain ⟨h1, h2⟩ := ih m0
    have hle := h1 m0 (by simp)
    constructor
    · intro x hx
      simp only [List.mem_cons] at hx
      rcases hx with rfl | rfl | hx
      · omega
      · omega
      · exact h1 x (by simp [hx])
    · simp only [List.mem_cons] at h2 ⊢
      rcases h2 with h2 | h2
      · rw [h2]
        rcases hm.2.2 with h | h
        · exact Or.inl h
        · exact Or.inr (Or.inl h)
      · exact Or.inr (Or.inr h2)

theorem min_element_spec (v : List Nat) (hv : v ≠ []) :
    ∃ m, min_element v = .ok m ∧ (∀ x ∈ v, m ≤ x) ∧ m ∈ v := by
  cases v with
  | nil => exact absurd rfl hv
  | cons a rest => exact ⟨_, rfl, foldl_min_spec rest a⟩

/-- Every entry of the row after an edge is at least the least entry of the row
before it. -/
theorem lev_row_of_snoc_gt (s acc : List Char) (c : Char) (k : Nat)
    (h : ∀ x ∈ lev_row_of s acc, k < x) : ∀ x ∈ lev_row_of s (acc ++ [c]), k < x := by
  have hall : ∀ i, i ≤ s.length → k < lev_distance acc (s.take i) := by
    intro i hi
    apply h
    simp only [lev_row_of, List.mem_map, List.mem_range]
    exact ⟨i, by omega, rfl⟩
  have hnew : ∀ i, i ≤ s.length → k < lev_distance (acc ++ [c]) (s.take i) := by
    intro i
    induction i with
    | zero =>
      intro _
      have := hall 0 (by omega)
      simp only [List.take_zero, lev_nil_right, List.length_append,
        List.length_singleton] at this ⊢
      omega
    | succ i ih =>
      intro hi
      have h1 := ih (by omega)
      have h2 := hall (i + 1) hi
      have h3 := hall i (by omega)
      rw [take_succ_eq_snoc s i (by omega)] at h2 ⊢
      rw [lev_snoc_snoc]
      split_ifs <;> omega
  intro x hx
  simp only [lev_row_of, List.mem_map, List.mem_range] at hx
  obtain ⟨i, hi, rfl⟩ := hx
  exact hnew i (by omega)

theorem lev_row_of_append_gt (s acc q : List Char) (k : Nat)
    (h : ∀ x ∈ lev_row_of s acc, k < x) : ∀ x ∈ lev_row_of s (acc ++ q), k < x := by
  induction q generalizing acc with
  | nil => simpa using h
  | cons c q ih =>
    have := ih (acc ++ [c]) (lev_row_of_snoc_gt s acc c k h)
    simpa [List.append_assoc] using this

theorem lev_row_of_last_mem (s acc : List Char) :
    lev_distance acc s ∈ lev_row_of s acc := by
  simp only [lev_row_of, List.mem_map, List.mem_range]
  exact ⟨s.length, by omega, by simp⟩

theorem lev_row_of_goal (s acc : List Char) :
    checked_at (lev_row_of s acc) ((lev_row_of s acc).length - 1)
      = .ok (lev_distance acc s) := by
  rw [checked_at_of_lt _ _ (by rw [lev_row_of_length]; omega), lev_row_of_getElem]
  simp [lev_row_of_length]

theorem lev_row_of_ne_nil (s acc : List Char) : lev_row_of s acc ≠ [] := by
  intro h
  have := lev_row_of_length s acc
  rw [h] at this
  simp at this

theorem lev_visit_cons (s : List Char) (k : Nat) (prev : lev_entry)
    (hrow : prev.lev_row = lev_row_of s prev.read_string)
    (first : Char) (second : dtree_node) (rest : List (Char × dtree_node))
    (vars : search_vars) (hvars : vars.s_matched = false) (stack : List lev_entry) :
    ∃ m, (∀ x ∈ lev_row_of s (prev.read_string ++ [first]), m ≤ x) ∧
      m ∈ lev_row_of s (prev.read_string ++ [first]) ∧
      lev_visit s k prev ((first, second) :: rest) vars stack
        = if lev_distance (prev.read_string ++ [first]) s ≤ k ∧
              first = tree_end_of_string_marker then
            .ok (⟨true, prev.read_string ++ [first],
                lev_distance (prev.read_string ++ [first]) s⟩,
              if m ≤ k then
                ⟨second, prev.read_string ++ [first],
                  lev_row_of s (prev.read_string ++ [first])⟩ :: stack
              else stack)
          else
            lev_visit s k prev rest vars
              (if m ≤ k then
                ⟨second, prev.read_string ++ [first],
                  lev_row_of s (prev.read_string ++ [first])⟩ :: stack
              else stack) := by
  obtain ⟨m, hm, hle, hmem⟩ := min_element_spec (lev_row_of s (prev.read_string ++ [first]))
    (lev_row_of_ne_nil _ _)
  refine ⟨m, hle, hmem, ?_⟩
  rw [lev_visit, hrow, lev_row_spec]
  simp only [lev_row_of_goal, hm]
  by_cases hc : lev_distance (prev.read_string ++ [first]) s ≤ k ∧
      first = tree_end_of_string_marker
  · rw [if_pos hc, if_pos hc]
    simp
  · rw [if_neg hc, if_neg hc]
    simp [hvars]

theorem lev_stack_size_cons (e : lev_entry) (stack : List lev_entry) :
    lev_stack_size (e :: stack) = e.node.size + lev_stack_size stack := by
  simp [lev_stack_size]

theorem lev_visit_spec (s : List Char) (k : Nat) (prev : lev_entry)
    (hrow : prev.lev_row = lev_row_of s prev.read_string)
    (cs : List (Char × dtree_node)) (vars : search_vars) (hvars : vars.s_matched = false)
    (stack : List lev_entry) :
    ∃ r, lev_visit s k prev cs vars stack = .ok r ∧
      (((∃ child, (tree_end_of_string_marker, child) ∈ cs) ∧
          lev_distance (prev.read_string ++ [tree_end_of_string_marker]) s ≤ k ∧
          r.1 = ⟨true, prev.read_string ++ [tree_end_of_string_marker],
            lev_distance (prev.read_string ++ [tree_end_of_string_marker]) s⟩)
        ∨ (r.1 = vars ∧
          (∀ child, (tree_end_of_string_marker, child) ∈ cs →
            ¬ lev_distance (prev.read_string ++ [tree_end_of_string_marker]) s ≤ k) ∧
          (∀ e ∈ r.2, e ∈ stack ∨ ∃ c m, (c, m) ∈ cs ∧
            e = ⟨m, prev.read_string ++ [c], lev_row_of s (prev.read_string ++ [c])⟩) ∧
          (∀ e ∈ stack, e ∈ r.2) ∧
          (∀ c m, (c, m) ∈ cs →
            (⟨m, prev.read_string ++ [c], lev_row_of s (prev.read_string ++ [c])⟩ :
                lev_entry) ∈ r.2
              ∨ ∀ x ∈ lev_row_of s (prev.read_string ++ [c]), k < x) ∧
          lev_stack_size r.2 ≤ size_children cs + lev_stack_size stack)) := by
  induction cs generalizing stack with
  | nil =>
    refine ⟨(vars, stack), rfl, Or.inr ⟨rfl, ?_, ?_, ?_, ?_, ?_⟩⟩
    · simp
    · intro e he; exact Or.inl he
    · intro e he; exact he
    · simp
    · simp [size_children]
  | cons e rest ih =>
    obtain ⟨first, second⟩ := e
    obtain ⟨m, hle, hmem, hv⟩ := lev_visit_cons s k prev hrow first second rest vars hvars stack
    rw [hv]
    by_cases hc : lev_distance (prev.read_string ++ [first]) s ≤ k ∧
        first = tree_end_of_string_marker
    · rw [if_pos hc]
      obtain ⟨hc1, hc2⟩ := hc
      subst hc2
      exact ⟨_, rfl, Or.inl ⟨⟨second, by simp⟩, hc1, rfl⟩⟩
    · rw [if_neg hc]
      obtain ⟨r, hr, hres⟩ := ih (if m ≤ k then
          ⟨second, prev.read_string ++ [first],
            lev_row_of s (prev.read_string ++ [first])⟩ :: stack
        else stack)
      refine ⟨r, hr, ?_⟩
      rcases hres with ⟨⟨child, hchild⟩, h1, h2⟩ | ⟨h1, h2, h3, h4, h5, h6⟩
      · exact Or.inl ⟨⟨child, by simp [hchild]⟩, h1, h2⟩
      · refine Or.inr ⟨h1, ?_, ?_, ?_, ?_, ?_⟩
        · intro child hchild
          simp only [List.mem_cons, Prod.mk.injEq] at hchild
          rcases hchild with ⟨hh, _⟩ | hchild
          · intro hd
            exact hc ⟨by rw [← hh]; exact hd, hh.symm⟩
          · exact h2 child hchild
        · intro e he
          rcases h3 e he with h | ⟨c, n, hcn, h⟩
          · by_cases hmk : m ≤ k
            · rw [if_pos hmk] at h
              simp only [List.mem_cons] at h
              rcases h with h | h
              · exact Or.inr ⟨first, second, by simp, h⟩
              · exact Or.inl h
            · rw [if_neg hmk] at h
              exact Or.inl h
          · exact Or.inr ⟨c, n, by simp [hcn], h⟩
        · intro e he
          apply h4
          by_cases hmk : m ≤ k
          · rw [if_pos hmk]; simp [he]
          · rw [if_neg hmk]; exact he
        · intro c n hcn
          simp only [List.mem_cons, Prod.mk.injEq] at hcn
          rcases hcn with ⟨rfl, rfl⟩ | hcn
          · by_cases hmk : m ≤ k
            · left
              apply h4
              rw [if_pos hmk]; simp
            · right
              intro x hx
              have := hle x hx
              omega
          · exact h5 c n hcn
        · by_cases hmk : m ≤ k
          · rw [if_pos hmk, lev_stack_size_cons] at h6
            simp only [size_children] at h6 ⊢
            omega
          · rw [if_neg hmk] at h6
            simp only [size_children]
            omega

theorem lev_loop_spec (s : List Char) (k : Nat) (root : dtree_node) (fuel : Nat)
    (stack : List lev_entry)
    (hinv : ∀ e ∈ stack, walk root e.read_string e.node ∧
      e.lev_row = lev_row_of s e.read_string)
    (hfuel : lev_stack_size stack < fuel) :
    ∃ vars, lev_loop s k fuel search_vars.init stack = .ok vars ∧
      ((vars.s_matched = true ∧ ∃ p, stored root p ∧
          vars.s_matched_string = p ++ [tree_end_of_string_marker] ∧
          vars.s_matched_string_cost
            = lev_distance (p ++ [tree_end_of_string_marker]) s ∧
          lev_distance (p ++ [tree_end_of_string_marker]) s ≤ k)
        ∨ (vars = search_vars.init ∧ ∀ e ∈ stack, ∀ q n child, walk e.node q n →
            (tree_end_of_string_marker, child) ∈ n.m_children →
            ¬ lev_distance (e.read_string ++ q ++ [tree_end_of_string_marker]) s ≤ k)) := by
  induction fuel generalizing stack with
  | zero => omega
  | succ fuel ih =>
    cases stack with
    | nil =>
      refine ⟨search_vars.init, by simp [lev_loop, search_vars.init], Or.inr ⟨rfl, ?_⟩⟩
      simp
    | cons e rest =>
      obtain ⟨hw, hrow⟩ := hinv e (by simp)
      have hnode : e.node.size = 1 + size_children e.node.m_children := by
        cases e.node with
        | mk cs => simp [size]
      rw [lev_stack_size_cons] at hfuel
      obtain ⟨r, hr, hres⟩ := lev_visit_spec s k e hrow e.node.m_children search_vars.init
        rfl rest
      have hstep : lev_loop s k (fuel + 1) search_vars.init (e :: rest)
          = lev_loop s k fuel r.1 r.2 := by
        rw [lev_loop]
        have hr2 : lev_visit s k e e.node.m_children ⟨false, [], 0⟩ rest = .ok r := hr
        simp [search_vars.init, hr2]
      rw [hstep]
      rcases hres with ⟨⟨child, hchild⟩, h1, h2⟩ | ⟨h1, h2, h3, h4, h5, h6⟩
      · rw [h2]
        obtain ⟨f, rfl⟩ : ∃ f, fuel = f + 1 := ⟨fuel - 1, by omega⟩
        refine ⟨⟨true, e.read_string ++ [tree_end_of_string_marker],
          lev_distance (e.read_string ++ [tree_end_of_string_marker]) s⟩,
          by simp [lev_loop], Or.inl ⟨rfl, e.read_string, ⟨e.node, child, hw, hchild⟩, rfl,
            rfl, h1⟩⟩
      · rw [h1]
        have hinv2 : ∀ e2 ∈ r.2, walk root e2.read_string e2.node ∧
            e2.lev_row = lev_row_of s e2.read_string := by
          intro e2 he2
          rcases h3 e2 he2 with h | ⟨c, m, hcm, rfl⟩
          · exact hinv e2 (by simp [h])
          · exact ⟨walk_snoc hw hcm, rfl⟩
        obtain ⟨vars, hv, hres2⟩ := ih r.2 hinv2 (by omega)
        refine ⟨vars, hv, ?_⟩
        rcases hres2 with hres2 | ⟨hres1, hres2⟩
        · exact Or.inl hres2
        · refine Or.inr ⟨hres1, ?_⟩
          intro e2 he2 q n child hwalk hc
          simp only [List.mem_cons] at he2
          rcases he2 with rfl | he2
          · cases hwalk with
            | nil =>
              simp only [List.append_nil]
              exact h2 child hc
            | @cons _ m _ c2 q2 hm hwalk2 =>
              rcases h5 c2 m hm with h | h
              · have := hres2 _ h q2 n child hwalk2 hc
                simpa [List.append_assoc] using this
              · intro hd
                have h7 := lev_row_of_append_gt s (e2.read_string ++ [c2])
                  (q2 ++ [tree_end_of_string_marker]) k h _
                  (lev_row_of_last_mem s _)
                simp only [List.append_assoc, List.singleton_append, List.cons_append,
                  List.nil_append] at h7 hd
                omega
          · exact hres2 e2 (h4 e2 he2) q n child hwalk hc

/-- The value returned by `match_string_levenshtein_distance` on any tree. -/
theorem match_string_levenshtein_distance_spec (tree : dtree) (str : List Char) (k : Nat) :
    ∃ vars md, lev_search tree str k = .ok vars ∧
      match_string_levenshtein_distance tree str k = .ok md ∧
      md.source = str ∧ md.success = vars.s_matched ∧
      (md.success = true ↔ ∃ p, stored tree.root p ∧ lev_distance p str ≤ k) ∧
      (md.success = true →
        ∃ p, stored tree.root p ∧ lev_distance p str ≤ k ∧
          vars.s_matched_string = p ++ [tree_end_of_string_marker] ∧
          vars.s_matched_string_cost = lev_distance p str ∧
          md.message = "\"".toList ++ (str ++ [tree_end_of_string_marker])
            ++ "\" matched successfully with \"".toList
            ++ (p ++ [tree_end_of_string_marker]) ++ "\" using ".toList
            ++ to_string (lev_distance p str) ++ " edits".toList) := by
  obtain ⟨vars, hv, hres⟩ := lev_loop_spec (str ++ [tree_end_of_string_marker]) k
    tree.root (tree.root.size + 1)
    [⟨tree.root, [], List.range ((str ++ [tree_end_of_string_marker]).length + 1)⟩]
    (by
      intro e he
      simp only [List.mem_singleton] at he
      subst he
      exact ⟨walk.nil _, (lev_row_of_nil _).symm⟩)
    (by simp [lev_stack_size])
  have hv2 : lev_search tree str k = .ok vars := hv
  refine ⟨vars, ?_⟩
  simp only [match_string_levenshtein_distance, hv2, match_data.set]
  rcases hres with ⟨hm, p, hst, hstr, hcost, hk⟩ | ⟨hinit, hno⟩
  · rw [lev_snoc_same] at hcost hk
    rw [hm]
    refine ⟨_, trivial, rfl, rfl, rfl, ?_, ?_⟩
    · simp only [true_iff]
      exact ⟨p, hst, hk⟩
    · intro _
      refine ⟨p, hst, hk, hstr, hcost, ?_⟩
      simp [hstr, hcost]
  · subst hinit
    refine ⟨_, trivial, rfl, rfl, rfl, ?_, ?_⟩
    · simp only [search_vars.init, Bool.false_eq_true, false_iff, not_exists, not_and]
      intro p hst hk
      obtain ⟨n, child, hw, hc⟩ := hst
      have := hno _ (List.mem_singleton.mpr rfl) p n child hw hc
      simp only [List.nil_append, lev_snoc_same] at this
      exact this hk
    · simp [search_vars.init]

/-- Claim C10 (monotonic success of the substitution matcher): on every dictionary, for
every string and all budgets `k < k2`, `match_word_allow_substitution` returns a result
for both budgets, and if it succeeds with budget `k` it succeeds with budget `k2`. -/
theorem C10_subst_success_monotonic (d : word_dict) (s : List Char) (k k2 : Nat)
    (h : k < k2) :
    ∃ m m2, d.match_word_allow_substitution s k = .ok m ∧
      d.match_word_allow_substitution s k2 = .ok m2 ∧
      (m.success = true → m2.success = true) := by
  obtain ⟨_, m, _, h1, _, _, h3, _⟩ := match_string_allow_substitution_spec d.m_words s k
  obtain ⟨_, m2, _, h4, _, _, h6, _⟩ := match_string_allow_substitution_spec d.m_words s k2
  refine ⟨m, m2, h1, h4, fun hs => ?_⟩
  rw [h6]
  obtain ⟨p, hp, hl, hk⟩ := h3.mp hs
  exact ⟨p, hp, hl, by omega⟩

theorem C10_subst_success_monotonic_witness :
    1 < 2 ∧
      ∃ m m2, (add_words word_dict.empty ["aba".toList]).match_word_allow_substitution
          "abc".toList 1 = .ok m ∧
        (add_words word_dict.empty ["aba".toList]).match_word_allow_substitution
          "abc".toList 2 = .ok m2 ∧
        (m.success = true → m2.success = true) :=
  ⟨by decide, C10_subst_success_monotonic (add_words word_dict.empty ["aba".toList])
    "abc".toList 1 2 (by decide)⟩

namespace dtree_node

theorem map_index_id_of_map_at (c : Char) (l : List (Char × dtree_node)) (v : dtree_node)
    (hs : (l.map Prod.fst).Pairwise (fun a b => a < b)) (h : map_at c l = some v) :
    map_index c id l = l := by
  induction l with
  | nil => simp [map_at] at h
  | cons e rest ih =>
    obtain ⟨k, w⟩ := e
    simp only [List.map_cons, List.pairwise_cons, List.mem_map, forall_exists_index,
      and_imp] at hs
    by_cases h1 : c = k
    · simp [map_index, h1]
    · by_cases h2 : c < k
      · have hn : map_at c rest = none := by
          apply map_at_eq_none_of_lt
          intro e he
          exact lt_trans h2 (hs.1 e.1 e he rfl)
        simp [map_at, h1, hn] at h
      · simp only [map_at, h1, if_false] at h
        simp [map_index, h1, h2, ih hs.2 h]

theorem map_index_perm_of_map_at_none (c : Char) (f : dtree_node → dtree_node)
    (l : List (Char × dtree_node)) (h : map_at c l = none) :
    (map_index c f l).Perm ((c, f (mk [])) :: l) := by
  induction l with
  | nil => simp [map_index]
  | cons e rest ih =>
    obtain ⟨k, w⟩ := e
    by_cases h1 : c = k
    · simp [map_at, h1] at h
    · simp only [map_at, h1, if_false] at h
      by_cases h2 : c < k
      · simp [map_index, h1, h2]
      · simp only [map_index, h1, h2, if_false]
        exact List.Perm.trans (List.Perm.cons _ (ih h)) (List.Perm.swap _ _ _)

theorem map_erase_snd (c : Char) (l : List (Char × dtree_node)) :
    (map_erase c l).2 = if (map_at c l).isSome then 1 else 0 := by
  induction l with
  | nil => simp [map_erase, map_at]
  | cons e rest ih =>
    obtain ⟨k, w⟩ := e
    by_cases h1 : c = k
    · simp [map_erase, map_at, h1]
    · simp [map_erase, map_at, h1, ih]

theorem map_erase_length (c : Char) (l : List (Char × dtree_node)) :
    (map_erase c l).1.length + (map_erase c l).2 = l.length := by
  induction l with
  | nil => simp [map_erase]
  | cons e rest ih =>
    obtain ⟨k, w⟩ := e
    by_cases h1 : c = k
    · simp [map_erase, h1]
    · simp only [map_erase, h1, if_false, List.length_cons]
      omega

theorem map_at_map_erase_ne (a c : Char) (hac : a ≠ c) (l : List (Char × dtree_node)) :
    map_at a (map_erase c l).1 = map_at a l := by
  induction l with
  | nil => simp [map_erase]
  | cons e rest ih =>
    obtain ⟨k, w⟩ := e
    by_cases h1 : c = k
    · subst h1; simp [map_erase, map_at, hac]
    · simp [map_erase, map_at, h1, ih]

theorem map_at_map_erase_self (c : Char) (l : List (Char × dtree_node))
    (hs : (l.map Prod.fst).Pairwise (fun a b => a < b)) :
    map_at c (map_erase c l).1 = none := by
  induction l with
  | nil => simp [map_erase, map_at]
  | cons e rest ih =>
    obtain ⟨k, w⟩ := e
    simp only [List.map_cons, List.pairwise_cons, List.mem_map, forall_exists_index,
      and_imp] at hs
    by_cases h1 : c = k
    · subst h1
      simp only [map_erase, if_true]
      apply map_at_eq_none_of_lt
      intro e he
      exact hs.1 e.1 e he rfl
    · simp [map_erase, map_at, h1, ih hs.2]

theorem map_erase_eq_self_of_none (c : Char) (l : List (Char × dtree_node))
    (h : map_at c l = none) : (map_erase c l).1 = l := by
  induction l with
  | nil => simp [map_erase]
  | cons e rest ih =>
    obtain ⟨k, w⟩ := e
    by_cases h1 : c = k
    · simp [map_at, h1] at h
    · simp only [map_at, h1, if_false] at h
      simp [map_erase, h1, ih h]

end dtree_node

/-- Claim C19 (`set_child`): for every node (its keys in increasing order, as in any
`std::map`) and symbol `c`: if the node has a child for `c`, `set_child` leaves the node
unchanged and the child it returns is that child; otherwise the entries of the node
after the call are those before it plus one entry for `c` with a child without
children; children for other symbols are unchanged in both cases; calling `set_child`
twice gives the same node as calling it once; afterwards `child_ptr` finds a child for
`c`, and the keys are still in increasing order. -/
theorem C19_set_child (n : dtree_node) (c : Char) (hn : ordered n) :
    (∀ v, n.child_ptr c = some v →
      n.set_child c = n ∧ (n.set_child c).child_ptr c = some v) ∧
    (n.child_ptr c = none →
      (n.set_child c).child_ptr c = some (dtree_node.mk []) ∧
      (n.set_child c).m_children.Perm ((c, dtree_node.mk []) :: n.m_children) ∧
      (n.set_child c).number_of_children = n.number_of_children + 1) ∧
    (∀ a, a ≠ c → (n.set_child c).child_ptr a = n.child_ptr a) ∧
    (n.set_child c).set_child c = n.set_child c ∧
    (n.set_child c).child_ptr c ≠ none ∧
    ordered (n.set_child c) := by
  obtain ⟨cs⟩ := n
  obtain ⟨h1, h2⟩ := ordered_children hn
  have hself := map_at_map_index_sorted c id cs h1
  refine ⟨?_, ?_, ?_, ?_, ?_, ?_⟩
  · intro v hv
    simp only [child_ptr, m_children_mk] at hv
    have heq : set_child (dtree_node.mk cs) c = dtree_node.mk cs := by
      simp only [set_child, m_children_mk, map_index_id_of_map_at c cs v h1 hv]
    rw [heq]
    exact ⟨rfl, hv⟩
  · intro hnone
    simp only [child_ptr, m_children_mk] at hnone
    have hp := map_index_perm_of_map_at_none c id cs hnone
    refine ⟨?_, ?_, ?_⟩
    · simp only [child_ptr, set_child, m_children_mk, hself, hnone]
      rfl
    · simpa [set_child] using hp
    · simp only [number_of_children, set_child, m_children_mk, hp.length_eq,
        List.length_cons]
  · intro a ha
    simp only [child_ptr, set_child, m_children_mk, map_at_map_index_ne a c ha]
  · simp only [set_child, m_children_mk, map_index_idem c id (fun _ => rfl)]
  · simp only [child_ptr, set_child, m_children_mk, hself]
    simp
  · refine ordered.mk _ (map_index_sorted c id cs h1) ?_
    intro e he
    rcases mem_map_index c id cs e he with h | ⟨_, h | ⟨v, hv, h⟩⟩
    · exact h2 e h
    · rw [h]; exact ordered_nil
    · rw [h]; exact h2 _ hv

theorem C19_set_child_witness :
    ordered (add_words word_dict.empty ["a".toList]).m_words.root ∧
    ((∀ v, (add_words word_dict.empty ["a".toList]).m_words.root.child_ptr 'b' = some v →
      (add_words word_dict.empty ["a".toList]).m_words.root.set_child 'b'
        = (add_words word_dict.empty ["a".toList]).m_words.root ∧
      ((add_words word_dict.empty ["a".toList]).m_words.root.set_child 'b').child_ptr 'b'
        = some v) ∧
    ((add_words word_dict.empty ["a".toList]).m_words.root.child_ptr 'b' = none →
      ((add_words word_dict.empty ["a".toList]).m_words.root.set_child 'b').child_ptr 'b'
        = some (dtree_node.mk []) ∧
      ((add_words word_dict.empty ["a".toList]).m_words.root.set_child 'b').m_children.Perm
        (('b', dtree_node.mk [])
          :: (add_words word_dict.empty ["a".toList]).m_words.root.m_children) ∧
      ((add_words word_dict.empty ["a".toList]).m_words.root.set_child 'b').number_of_children
        = (add_words word_dict.empty ["a".toList]).m_words.root.number_of_children + 1) ∧
    (∀ a, a ≠ 'b' →
      ((add_words word_dict.empty ["a".toList]).m_words.root.set_child 'b').child_ptr a
        = (add_words word_dict.empty ["a".toList]).m_words.root.child_ptr a) ∧
    ((add_words word_dict.empty ["a".toList]).m_words.root.set_child 'b').set_child 'b'
      = (add_words word_dict.empty ["a".toList]).m_words.root.set_child 'b' ∧
    ((add_words word_dict.empty ["a".toList]).m_words.root.set_child 'b').child_ptr 'b'
      ≠ none ∧
    ordered ((add_words word_dict.empty ["a".toList]).m_words.root.set_child 'b')) :=
  ⟨add_words_ordered word_dict.empty ["a".toList] empty_ordered,
    C19_set_child (add_words word_dict.empty ["a".toList]).m_words.root 'b'
      (add_words_ordered word_dict.empty ["a".toList] empty_ordered)⟩

/-- Claim C20 (`unset_child`): for every node (its keys in increasing order, as in any
`std::map`) and symbol `c`: `unset_child` returns true exactly when the node had a child
for `c`; afterwards `child_ptr` finds no child for `c`; `number_of_children` has gone
down by exactly one when true was returned and the node is unchanged otherwise; and the
child for every other symbol is unchanged. -/
theorem C20_unset_child (n : dtree_node) (c : Char) (hn : ordered n) :
    ((n.unset_child c).1 = true ↔ n.child_ptr c ≠ none) ∧
    (n.unset_child c).2.child_ptr c = none ∧
    ((n.unset_child c).1 = true →
      (n.unset_child c).2.number_of_children + 1 = n.number_of_children) ∧
    ((n.unset_child c).1 = false →
      (n.unset_child c).2 = n ∧
      (n.unset_child c).2.number_of_children = n.number_of_children) ∧
    (∀ a, a ≠ c → (n.unset_child c).2.child_ptr a = n.child_ptr a) := by
  obtain ⟨cs⟩ := n
  obtain ⟨h1, _⟩ := ordered_children hn
  have hsnd := map_erase_snd c cs
  have hlen := map_erase_length c cs
  refine ⟨?_, ?_, ?_, ?_, ?_⟩
  · simp only [unset_child, child_ptr, m_children_mk, beq_iff_eq, hsnd]
    cases h : map_at c cs <;> simp
  · simp only [unset_child, child_ptr, m_children_mk, map_at_map_erase_self c cs h1]
  · intro h
    simp only [unset_child, m_children_mk, beq_iff_eq] at h
    simp only [unset_child, number_of_children, m_children_mk]
    omega
  · intro h
    simp only [unset_child, m_children_mk, beq_eq_false_iff_ne, ne_eq, hsnd] at h
    have hnone : map_at c cs = none := by
      cases hc : map_at c cs with
      | none => rfl
      | some v => simp [hc] at h
    have heq : (unset_child (dtree_node.mk cs) c).2 = dtree_node.mk cs := by
      simp only [unset_child, m_children_mk, map_erase_eq_self_of_none c cs hnone]
    rw [heq]
    exact ⟨rfl, rfl⟩
  · intro a ha
    simp only [unset_child, child_ptr, m_children_mk, map_at_map_erase_ne a c ha]

theorem C20_unset_child_witness :
    ordered (add_words word_dict.empty ["a".toList, "b".toList]).m_words.root ∧
    ((((add_words word_dict.empty ["a".toList, "b".toList]).m_words.root.unset_child 'a').1
        = true ↔
      (add_words word_dict.empty ["a".toList, "b".toList]).m_words.root.child_ptr 'a'
        ≠ none) ∧
    ((add_words word_dict.empty ["a".toList, "b".toList]).m_words.root.unset_child 'a').2.child_ptr
      'a' = none ∧
    (((add_words word_dict.empty ["a".toList, "b".toList]).m_words.root.unset_child 'a').1
        = true →
      ((add_words word_dict.empty ["a".toList, "b".toList]).m_words.root.unset_child
          'a').2.number_of_children + 1
        = (add_words word_dict.empty ["a".toList, "b".toList]).m_words.root.number_of_children) ∧
    (((add_words word_dict.empty ["a".toList, "b".toList]).m_words.root.unset_child 'a').1
        = false →
      ((add_words word_dict.empty ["a".toList, "b".toList]).m_words.root.unset_child 'a').2
        = (add_words word_dict.empty ["a".toList, "b".toList]).m_words.root ∧
      ((add_words word_dict.empty ["a".toList, "b".toList]).m_words.root.unset_child
          'a').2.number_of_children
        = (add_words word_dict.empty ["a".toList, "b".toList]).m_words.root.number_of_children) ∧
    (∀ a, a ≠ 'a' →
      ((add_words word_dict.empty ["a".toList, "b".toList]).m_words.root.unset_child
          'a').2.child_ptr a
        = (add_words word_dict.empty ["a".toList, "b".toList]).m_words.root.child_ptr a)) :=
  ⟨add_words_ordered word_dict.empty ["a".toList, "b".toList] empty_ordered,
    C20_unset_child (add_words word_dict.empty ["a".toList, "b".toList]).m_words.root 'a'
      (add_words_ordered word_dict.empty ["a".toList, "b".toList] empty_ordered)⟩

theorem subst_loop_matched (s : List Char) (n k fuel : Nat) (vars : search_vars)
    (stack : List subst_entry) (h : vars.s_matched = true) :
    subst_loop s n k (fuel + 1) vars stack = .ok vars := by
  cases stack <;> simp [subst_loop, h]

/-- A match of the substitution search found with a larger budget, at a cost within
the smaller budget, is the match found with the smaller budget. -/
theorem subst_loop_budget (s : List Char) (n k k2 : Nat) (hk : k ≤ k2) (fuel : Nat)
    (stack : List subst_entry) (vars2 : search_vars)
    (h2 : subst_loop s n k2 fuel search_vars.init stack = .ok vars2)
    (hm : vars2.s_matched = true) (hc : vars2.s_matched_string_cost ≤ k) :
    subst_loop s n k fuel search_vars.init stack = .ok vars2 := by
  induction fuel generalizing stack with
  | zero => simp [subst_loop] at h2
  | succ fuel ih =>
    cases stack with
    | nil =>
      simp only [subst_loop, search_vars.init, Bool.false_eq_true, if_false,
        Except.ok.injEq] at h2
      rw [← h2] at hm
      simp at hm
    | cons e rest =>
      cases hat : checked_at s e.nb_chars_read with
      | error err => simp [subst_loop, search_vars.init, hat] at h2
      | ok x =>
        have hstep : ∀ b, subst_loop s n b (fuel + 1) search_vars.init (e :: rest)
            = subst_loop s n b fuel
                (subst_visit n b e x e.node.m_children search_vars.init rest).1
                (subst_visit n b e x e.node.m_children search_vars.init rest).2 := by
          intro b
          rw [subst_loop]
          simp [search_vars.init, hat]
        rw [hstep] at h2 ⊢
        rcases subst_visit_spec n k2 e x e.node.m_children search_vars.init rest with
          ⟨⟨child, hchild⟩, a1, a2, a3⟩ | ⟨b1, b2, b3⟩
        · rw [a3] at h2
          cases fuel with
          | zero => simp [subst_loop] at h2
          | succ f =>
            rw [subst_loop_matched _ _ _ _ _ _ rfl] at h2
            simp only [Except.ok.injEq] at h2
            subst h2
            simp only [] at hc
            rcases subst_visit_spec n k e x e.node.m_children search_vars.init rest with
              ⟨_, _, _, c3⟩ | ⟨d1, _, _⟩
            · rw [c3, subst_loop_matched _ _ _ _ _ _ rfl]
            · exact absurd ⟨a1, hc⟩ (d1 child hchild)
        · rcases subst_visit_spec n k e x e.node.m_children search_vars.init rest with
            ⟨⟨child, hchild⟩, c1, c2, _⟩ | ⟨_, d2, d3⟩
          · exact absurd ⟨c1, le_trans c2 hk⟩ (b1 child hchild)
          · rw [b2, b3] at h2
            rw [d2, d3]
            exact ih _ h2

/-- Claim C11 as amended (cost of the substitution matcher under a larger budget): on
every dictionary, for every string and all budgets `k < k2`, if the match succeeds with
budget `k` then it succeeds with budget `k2`, the count reported with `k2` is at most
`k2`, and if that count is at most `k` then the report (matched string and count) is the
one made with budget `k`; otherwise the count reported with `k2` is greater than `k`. -/
theorem C11_subst_cost_amended (d : word_dict) (s : List Char) (k k2 : Nat) (h : k < k2) :
    ∃ vars vars2 md md2,
      subst_search d.m_words s k = .ok vars ∧ subst_search d.m_words s k2 = .ok vars2 ∧
      d.match_word_allow_substitution s k = .ok md ∧
      d.match_word_allow_substitution s k2 = .ok md2 ∧
      md.success = vars.s_matched ∧ md2.success = vars2.s_matched ∧
      (md.success = true →
        md2.success = true ∧ vars2.s_matched_string_cost ≤ k2 ∧
        (vars2.s_matched_string_cost ≤ k → vars2 = vars)) := by
  obtain ⟨vars, md, h0, h1, _, h2, h3, _⟩ := match_string_allow_substitution_spec d.m_words s k
  obtain ⟨vars2, md2, g0, g1, _, g2, g3, g4⟩ :=
    match_string_allow_substitution_spec d.m_words s k2
  refine ⟨vars, vars2, md, md2, h0, g0, h1, g1, h2, g2, fun hs => ?_⟩
  have hs2 : md2.success = true := by
    rw [g3]
    obtain ⟨p, hp, hl, hk⟩ := h3.mp hs
    exact ⟨p, hp, hl, by omega⟩
  obtain ⟨p, _, _, hk2, _, hcost, _⟩ := g4 hs2
  refine ⟨hs2, by rw [hcost]; exact hk2, fun hle => ?_⟩
  have := subst_loop_budget _ _ k k2 (le_of_lt h) _ _ vars2 g0 (by rw [← g2]; exact hs2) hle
  have h0b : subst_loop (s ++ [tree_end_of_string_marker])
      (s ++ [tree_end_of_string_marker]).length k (d.m_words.root.size + 1)
      search_vars.init [⟨d.m_words.root, [], 0, 0⟩] = .ok vars := h0
  rw [this] at h0b
  simpa using h0b

theorem C11_subst_cost_amended_witness :
    0 < 1 ∧
    ∃ vars vars2 md md2,
      subst_search (add_words word_dict.empty ["ab".toList, "ac".toList]).m_words
        "ab".toList 0 = .ok vars ∧
      subst_search (add_words word_dict.empty ["ab".toList, "ac".toList]).m_words
        "ab".toList 1 = .ok vars2 ∧
      (add_words word_dict.empty ["ab".toList, "ac".toList]).match_word_allow_substitution
        "ab".toList 0 = .ok md ∧
      (add_words word_dict.empty ["ab".toList, "ac".toList]).match_word_allow_substitution
        "ab".toList 1 = .ok md2 ∧
      md.success = vars.s_matched ∧ md2.success = vars2.s_matched ∧
      (md.success = true →
        md2.success = true ∧ vars2.s_matched_string_cost ≤ 1 ∧
        (vars2.s_matched_string_cost ≤ 0 → vars2 = vars)) :=
  ⟨by decide, C11_subst_cost_amended
    (add_words word_dict.empty ["ab".toList, "ac".toList]) "ab".toList 0 1 (by decide)⟩

/-- Counterexample to claim C11 as stated: with "ab" and "ac" stored, the query "ab"
succeeds with budget 0 reporting "ab$" and 0 substitutions, and with budget 1 reporting
"ac$" and 1 substitution, which is higher. -/
theorem C11_subst_cost_counterexample :
    subst_search (add_words word_dict.empty ["ab".toList, "ac".toList]).m_words
        "ab".toList 0 = .ok ⟨true, "ab$".toList, 0⟩ ∧
    subst_search (add_words word_dict.empty ["ab".toList, "ac".toList]).m_words
        "ab".toList 1 = .ok ⟨true, "ac$".toList, 1⟩ ∧
    (∃ md, (add_words word_dict.empty
          ["ab".toList, "ac".toList]).match_word_allow_substitution "ab".toList 0 = .ok md ∧
      md.success = true ∧
      md.message = "\"ab$\" matched successfully with \"ab$\" using 0 substs".toList) ∧
    (∃ md, (add_words word_dict.empty
          ["ab".toList, "ac".toList]).match_word_allow_substitution "ab".toList 1 = .ok md ∧
      md.success = true ∧
      md.message = "\"ab$\" matched successfully with \"ac$\" using 1 substs".toList) ∧
    ¬ ((1 : Nat) ≤ 0) := by
  refine ⟨rfl, rfl, ⟨_, rfl, by decide, by decide⟩, ⟨_, rfl, by decide, by decide⟩,
    by decide⟩

theorem marked_nil : marked (dtree_node.mk []) := marked.mk [] (by simp) (by simp)

theorem marked_children {cs : List (Char × dtree_node)} (h : marked (dtree_node.mk cs)) :
    (∀ e ∈ cs, (e.1 = tree_end_of_string_marker ↔ e.2.m_children = [])) ∧
      ∀ e ∈ cs, marked e.2 := by
  cases h with
  | mk _ h1 h2 => exact ⟨h1, h2⟩

theorem map_index_ne_nil (c : Char) (f : dtree_node → dtree_node)
    (l : List (Char × dtree_node)) : map_index c f l ≠ [] := by
  cases l with
  | nil => simp [map_index]
  | cons e rest =>
    obtain ⟨k, v⟩ := e
    by_cases h1 : c = k
    · simp [map_index, h1]
    · by_cases h2 : c < k <;> simp [map_index, h1, h2]

theorem add_string_loop_cons_children (c : Char) (p : List Char) (n : dtree_node) :
    (add_string_loop (c :: p) n).m_children ≠ [] := by
  rw [add_string_loop]
  exact map_index_ne_nil _ _ _

theorem add_string_loop_marked (w : List Char) (hw : tree_end_of_string_marker ∉ w)
    (n : dtree_node) (hn : marked n) :
    marked (add_string_loop (w ++ [tree_end_of_string_marker]) n) := by
  induction w generalizing n with
  | nil =>
    obtain ⟨cs⟩ := n
    obtain ⟨h1, h2⟩ := marked_children hn
    simp only [List.nil_append, add_string_loop, m_children_mk]
    refine marked.mk _ ?_ ?_
    · intro e he
      rcases mem_map_index _ _ _ e he with h | ⟨h3, h | ⟨v, hv, h⟩⟩
      · exact h1 e h
      · simp [h3, h, add_string_loop]
      · rw [h]
        simp only [add_string_loop, h3, true_iff]
        exact (h1 _ hv).mp rfl
    · intro e he
      rcases mem_map_index _ _ _ e he with h | ⟨_, h | ⟨v, hv, h⟩⟩
      · exact h2 e h
      · rw [h]; exact marked_nil
      · rw [h]; exact h2 _ hv
  | cons c w ih =>
    obtain ⟨cs⟩ := n
    obtain ⟨h1, h2⟩ := marked_children hn
    have hc : c ≠ tree_end_of_string_marker := by
      intro h; exact hw (by simp [h])
    have hw2 : tree_end_of_string_marker ∉ w := by
      intro h; exact hw (by simp [h])
    have hne : ∀ v, (add_string_loop (w ++ [tree_end_of_string_marker]) v).m_children ≠ [] := by
      intro v
      cases w with
      | nil => exact add_string_loop_cons_children _ _ _
      | cons a w => exact add_string_loop_cons_children _ _ _
    simp only [List.cons_append, add_string_loop, m_children_mk]
    refine marked.mk _ ?_ ?_
    · intro e he
      rcases mem_map_index _ _ _ e he with h | ⟨h3, h | ⟨v, hv, h⟩⟩
      · exact h1 e h
      · rw [h3, h]
        simp [hc, hne]
      · rw [h3, h]
        simp [hc, hne]
    · intro e he
      rcases mem_map_index _ _ _ e he with h | ⟨_, h | ⟨v, hv, h⟩⟩
      · exact h2 e h
      · rw [h]; exact ih hw2 _ marked_nil
      · rw [h]; exact ih hw2 _ (h2 _ hv)

theorem add_word_marked (d : word_dict) (w : List Char) (hd : marked d.m_words.root) :
    marked (d.add_word w).2.m_words.root := by
  by_cases h : tree_end_of_string_marker ∈ w
  · rw [add_word_snd_of_mem d w h]; exact hd
  · rw [add_word_snd_of_not_mem d w h]
    exact add_string_loop_marked w h _ hd

theorem add_words_marked (d : word_dict) (ws : List (List Char))
    (hd : marked d.m_words.root) : marked (add_words d ws).m_words.root := by
  induction ws generalizing d with
  | nil => exact hd
  | cons w ws ih =>
    simp only [add_words, List.foldl_cons]
    exact ih _ (add_word_marked d w hd)

theorem marked_of_walk {n m : dtree_node} {q : List Char} (hn : marked n)
    (h : walk n q m) : marked m := by
  induction h with
  | nil _ => exact hn
  | @cons n m _ c p hc _ ih =>
    obtain ⟨cs⟩ := n
    exact ih ((marked_children hn).2 _ hc)

theorem size_le_size_children {cs : List (Char × dtree_node)} {e : Char × dtree_node}
    (he : e ∈ cs) : e.2.size ≤ size_children cs := by
  induction cs with
  | nil => simp at he
  | cons x rest ih =>
    obtain ⟨k, v⟩ := x
    simp only [List.mem_cons] at he
    rcases he with rfl | he
    · simp [size_children]
    · have := ih he
      simp only [size_children]
      omega

theorem fetch_tree_strings_node_mk (cs : List (Char × dtree_node)) (acc : List Char) :
    fetch_tree_strings_node (dtree_node.mk cs) acc = fetch_tree_strings_children cs acc := by
  rw [fetch_tree_strings_node]

theorem mem_fetch_tree_strings_children (cs : List (Char × dtree_node)) (acc x : List Char) :
    x ∈ fetch_tree_strings_children cs acc ↔
      ∃ e ∈ cs, x ∈ (if e.2.has_children then fetch_tree_strings_node e.2 (acc ++ [e.1])
        else [acc ++ [e.1]]) := by
  induction cs with
  | nil => simp [fetch_tree_strings_children]
  | cons e rest ih =>
    obtain ⟨first, second⟩ := e
    rw [fetch_tree_strings_children, List.mem_append, ih]
    simp only [List.mem_cons, exists_eq_or_imp]

theorem has_children_iff (n : dtree_node) : n.has_children = true ↔ n.m_children ≠ [] := by
  simp [has_children, List.isEmpty_iff]

/-- The strings handed to the callback from a node are the labels of the walks from
the node that end, after at least one edge, at a node without children. -/
theorem mem_fetch_tree_strings_node (n : dtree_node) (acc x : List Char) :
    x ∈ fetch_tree_strings_node n acc ↔
      ∃ q m, q ≠ [] ∧ walk n q m ∧ m.m_children = [] ∧ x = acc ++ q := by
  have key : ∀ k (n : dtree_node), n.size ≤ k → ∀ acc x,
      (x ∈ fetch_tree_strings_node n acc ↔
        ∃ q m, q ≠ [] ∧ walk n q m ∧ m.m_children = [] ∧ x = acc ++ q) := by
    intro k
    induction k with
    | zero =>
      intro n hn
      have := size_pos n
      omega
    | succ k ih =>
      intro n hn acc x
      obtain ⟨cs⟩ := n
      rw [fetch_tree_strings_node_mk, mem_fetch_tree_strings_children]
      simp only [size] at hn
      constructor
      · rintro ⟨e, he, hx⟩
        have hsz : e.2.size ≤ k := by
          have := size_le_size_children he
          omega
        by_cases hc : e.2.has_children = true
        · rw [if_pos hc, ih e.2 hsz] at hx
          obtain ⟨q, m, _, hw, hm, rfl⟩ := hx
          exact ⟨e.1 :: q, m, by simp, walk.cons he hw, hm, by simp⟩
        · rw [if_neg hc] at hx
          simp only [List.mem_singleton] at hx
          have hleaf : e.2.m_children = [] := by
            by_contra h
            exact hc ((has_children_iff _).mpr h)
          exact ⟨[e.1], e.2, by simp, walk.cons he (walk.nil _), hleaf, hx⟩
      · rintro ⟨q, m, hq, hw, hm, rfl⟩
        cases hw with
        | nil => exact absurd rfl hq
        | @cons _ n2 _ c p hc hw2 =>
          simp only [m_children_mk] at hc
          refine ⟨(c, n2), hc, ?_⟩
          have hsz : n2.size ≤ k := by
            have := size_le_size_children hc
            simp only [] at this
            omega
          by_cases hch : n2.has_children = true
          · simp only [hch, if_true]
            rw [ih n2 hsz]
            refine ⟨p, m, ?_, hw2, hm, by simp⟩
            intro hp
            subst hp
            cases hw2
            exact (has_children_iff _).mp hch hm
          · have hleaf : n2.m_children = [] := by
              by_contra h
              exact hch ((has_children_iff _).mpr h)
            rw [if_neg hch]
            cases hw2 with
            | nil => simp
            | cons hc2 _ => rw [hleaf] at hc2; simp at hc2
  exact key n.size n (le_refl _) acc x

/-- On a tree that follows the marker convention, the strings handed to the callback are
the stored strings followed by the marker. -/
theorem mem_fetch_tree_strings_marked (n : dtree_node) (hn : marked n) (x : List Char) :
    x ∈ fetch_tree_strings_node n [] ↔
      ∃ p, stored n p ∧ x = p ++ [tree_end_of_string_marker] := by
  rw [mem_fetch_tree_strings_node]
  constructor
  · rintro ⟨q, m, hq, hw, hm, hx⟩
    rw [List.nil_append] at hx
    rw [hx]
    rcases List.eq_nil_or_concat q with h | ⟨p, c, h⟩
    · exact absurd h hq
    rw [List.concat_eq_append] at h
    subst h
    obtain ⟨n2, hw2, hc⟩ := (walk_snoc_iff _ _ _ _).mp hw
    have hn2 := marked_of_walk hn hw2
    obtain ⟨cs⟩ := n2
    have := ((marked_children hn2).1 _ hc).mpr hm
    simp only [] at this
    subst this
    exact ⟨p, ⟨_, m, hw2, hc⟩, by simp⟩
  · rintro ⟨p, ⟨n2, child, hw, hc⟩, rfl⟩
    have hn2 := marked_of_walk hn hw
    obtain ⟨cs⟩ := n2
    have hleaf := ((marked_children hn2).1 _ hc).mp rfl
    exact ⟨p ++ [tree_end_of_string_marker], child, by simp, walk_snoc hw hc, hleaf, by simp⟩

theorem fetch_entry_shape (e : Char × dtree_node) (acc x : List Char)
    (hx : x ∈ (if e.2.has_children then fetch_tree_strings_node e.2 (acc ++ [e.1])
      else [acc ++ [e.1]])) :
    ∃ t, x = acc ++ e.1 :: t := by
  by_cases hc : e.2.has_children = true
  · rw [if_pos hc, mem_fetch_tree_strings_node] at hx
    obtain ⟨q, _, _, _, _, rfl⟩ := hx
    exact ⟨q, by simp⟩
  · rw [if_neg hc] at hx
    simp only [List.mem_singleton] at hx
    exact ⟨[], by simp [hx]⟩

theorem fetch_tree_strings_children_nodup (cs : List (Char × dtree_node))
    (hs : (cs.map Prod.fst).Pairwise (fun a b => a < b))
    (ih : ∀ e ∈ cs, ∀ acc, (fetch_tree_strings_node e.2 acc).Nodup) (acc : List Char) :
    (fetch_tree_strings_children cs acc).Nodup := by
  induction cs with
  | nil => simp [fetch_tree_strings_children]
  | cons e rest ihl =>
    obtain ⟨first, second⟩ := e
    simp only [List.map_cons, List.pairwise_cons, List.mem_map, forall_exists_index,
      and_imp] at hs
    rw [fetch_tree_strings_children, List.nodup_append]
    refine ⟨?_, ihl hs.2 (fun e he => ih e (by simp [he])), ?_⟩
    · by_cases hc : second.has_children = true
      · rw [if_pos hc]
        exact ih (first, second) (by simp) _
      · rw [if_neg hc]
        simp
    · rw [List.disjoint_left]
      intro x hx1 hx2
      obtain ⟨t1, h1⟩ := fetch_entry_shape (first, second) acc x hx1
      rw [mem_fetch_tree_strings_children] at hx2
      obtain ⟨e, he, hx2⟩ := hx2
      obtain ⟨t2, h2⟩ := fetch_entry_shape e acc x hx2
      rw [h1] at h2
      have h3 := List.append_cancel_left h2
      simp only [List.cons.injEq] at h3
      have h4 := hs.1 e.1 e he rfl
      rw [← h3.1] at h4
      exact lt_irrefl _ h4

/-- On a tree whose keys are in increasing order at every node, no string is handed to
the callback twice. -/
theorem fetch_tree_strings_node_nodup (n : dtree_node) (hn : ordered n) :
    ∀ acc, (fetch_tree_strings_node n acc).Nodup := by
  induction hn with
  | mk cs h1 _ ih =>
    intro acc
    rw [fetch_tree_strings_node_mk]
    exact fetch_tree_strings_children_nodup cs h1 ih acc

theorem empty_marked : marked word_dict.empty.m_words.root := marked_nil

/-- Claim C15 as amended (enumeration of the stored words): on the dictionary built by
any sequence of `add_word` calls, `fetch_words` returns, without duplicates, exactly the
distinct accepted words, each followed by the end-of-word marker, which is kept. After
inserting "a", "b", "aba", "abb", "aaaa" and "aaaa" again into the empty dictionary it
returns the five strings "a$", "aaaa$", "aba$", "abb$", "b$". -/
theorem C15_fetch_words_amended :
    (∀ (words : List (List Char)),
      (add_words word_dict.empty words).fetch_words.Nodup ∧
      (∀ x, x ∈ (add_words word_dict.empty words).fetch_words ↔
        ∃ w ∈ accepted_words word_dict.empty words,
          x = w ++ [word_dict.end_of_word_marker]) ∧
      (add_words word_dict.empty words).fetch_words.Perm
        ((accepted_words word_dict.empty words).dedup.map
          (fun w => w ++ [word_dict.end_of_word_marker]))) ∧
    (add_words word_dict.empty ["a".toList, "b".toList, "aba".toList, "abb".toList,
        "aaaa".toList, "aaaa".toList]).fetch_words
      = ["a$".toList, "aaaa$".toList, "aba$".toList, "abb$".toList, "b$".toList] := by
  refine ⟨?_, by decide⟩
  intro words
  have hnd : (add_words word_dict.empty words).fetch_words.Nodup :=
    fetch_tree_strings_node_nodup _ (add_words_ordered _ _ empty_ordered) []
  have hmem : ∀ x, x ∈ (add_words word_dict.empty words).fetch_words ↔
      ∃ w ∈ accepted_words word_dict.empty words,
        x = w ++ [word_dict.end_of_word_marker] := by
    intro x
    have := mem_fetch_tree_strings_marked (add_words word_dict.empty words).m_words.root
      (add_words_marked _ _ empty_marked) x
    simp only [word_dict.fetch_words, fetch_tree_strings, word_dict.end_of_word_marker]
    rw [this]
    constructor
    · rintro ⟨p, hp, hx⟩
      exact ⟨p, (stored_add_words_iff words p).mp hp, hx⟩
    · rintro ⟨p, hp, hx⟩
      exact ⟨p, (stored_add_words_iff words p).mpr hp, hx⟩
  refine ⟨hnd, hmem, ?_⟩
  rw [List.perm_ext_iff_of_nodup hnd
    ((List.nodup_dedup _).map (List.append_left_injective _))]
  intro x
  rw [hmem]
  simp only [List.mem_map, List.mem_dedup]
  constructor
  · rintro ⟨w, hw, rfl⟩
    exact ⟨w, hw, rfl⟩
  · rintro ⟨w, hw, rfl⟩
    exact ⟨w, hw, rfl⟩

/-- Counterexample to claim C15 as stated: after inserting "a", "b", "aba", "abb",
"aaaa" and "aaaa" again into the empty dictionary, `fetch_words` does not return the
strings "a", "aba", "abb", "aaaa", "b": none of them is in its result, whose five
strings all end with the marker. -/
theorem C15_fetch_words_counterexample :
    "a".toList ∉ (add_words word_dict.empty ["a".toList, "b".toList, "aba".toList,
        "abb".toList, "aaaa".toList, "aaaa".toList]).fetch_words ∧
    (∀ w ∈ ["a".toList, "aba".toList, "abb".toList, "aaaa".toList, "b".toList],
      w ∉ (add_words word_dict.empty ["a".toList, "b".toList, "aba".toList,
        "abb".toList, "aaaa".toList, "aaaa".toList]).fetch_words) ∧
    (∀ x ∈ (add_words word_dict.empty ["a".toList, "b".toList, "aba".toList,
        "abb".toList, "aaaa".toList, "aaaa".toList]).fetch_words,
      x.getLast? = some word_dict.end_of_word_marker) ∧
    (add_words word_dict.empty ["a".toList, "b".toList, "aba".toList, "abb".toList,
        "aaaa".toList, "aaaa".toList]).fetch_words
      ≠ ["a".toList, "aba".toList, "abb".toList, "aaaa".toList, "b".toList] := by
  refine ⟨by decide, by decide, by decide, by decide⟩

theorem lev_row_of_getElem? (s acc : List Char) (i : Nat) (hi : i ≤ s.length) :
    (lev_row_of s acc)[i]? = some (lev_distance acc (s.take i)) := by
  rw [List.getElem?_eq_getElem (by rw [lev_row_of_length]; omega), lev_row_of_getElem]

theorem lev_snoc_left_le (xs ys : List Char) (a : Char) :
    lev_distance (xs ++ [a]) ys ≤ lev_distance xs ys + 1 := by
  rcases List.eq_nil_or_concat ys with h | ⟨ys2, b, h⟩
  · subst h
    simp [lev_nil_right]
  · rw [List.concat_eq_append] at h
    subst h
    rw [lev_snoc_snoc]
    omega

/-- Claim C22 as amended (row entries along an edge): for every row computed by
`match_string_levenshtein_distance` for an accumulated string and every edge symbol, the
row computed for the edge has the same length, its entry 0 is one more than entry 0 of
the row before, and each of its entries differs by at most one from the entry of the
row before at the same index: an entry can go down by one along an edge, but not by
more. -/
theorem C22_row_entries_amended (str acc : List Char) (c : Char) :
    ∃ row2, lev_row (str ++ [tree_end_of_string_marker]) c
        (lev_row_of (str ++ [tree_end_of_string_marker]) acc) = .ok row2 ∧
      row2.length = (lev_row_of (str ++ [tree_end_of_string_marker]) acc).length ∧
      (∃ r0, (lev_row_of (str ++ [tree_end_of_string_marker]) acc)[0]? = some r0 ∧
        row2[0]? = some (r0 + 1)) ∧
      (∀ i, i ≤ str.length + 1 →
        ∃ r r2, (lev_row_of (str ++ [tree_end_of_string_marker]) acc)[i]? = some r ∧
          row2[i]? = some r2 ∧ r ≤ r2 + 1 ∧ r2 ≤ r + 1) := by
  refine ⟨_, lev_row_spec _ acc c, ?_, ?_, ?_⟩
  · rw [lev_row_of_length, lev_row_of_length]
  · refine ⟨_, lev_row_of_getElem? _ acc 0 (by omega), ?_⟩
    rw [lev_row_of_getElem? _ _ 0 (by omega)]
    simp [lev_nil_right]
  · intro i hi
    have hi2 : i ≤ (str ++ [tree_end_of_string_marker]).length := by simpa using hi
    exact ⟨_, _, lev_row_of_getElem? _ acc i hi2, lev_row_of_getElem? _ _ i hi2,
      lev_le_snoc_left _ _ c, lev_snoc_left_le _ _ c⟩

/-- Counterexample to claim C22 as stated: for the query "a" the first row is
`[0, 1, 2]`, and the row computed for an edge labelled 'a' is `[1, 0, 1]`, whose entry 1
is lower than entry 1 of the first row; the search reaches it with "a" stored. -/
theorem C22_row_entries_counterexample :
    lev_row_of "a$".toList [] = [0, 1, 2] ∧
    lev_row "a$".toList 'a' [0, 1, 2] = .ok [1, 0, 1] ∧
    (∃ r, lev_visit "a$".toList 0
        ⟨(add_words word_dict.empty ["a".toList]).m_words.root, [], [0, 1, 2]⟩
        (add_words word_dict.empty ["a".toList]).m_words.root.m_children
        search_vars.init [] = .ok r ∧
      r.2.map (fun e => (e.read_string, e.lev_row)) = [("a".toList, [1, 0, 1])]) ∧
    ([1, 0, 1] : List Nat)[1]? = some 0 ∧ ([0, 1, 2] : List Nat)[1]? = some 1 ∧
    ¬ ((1 : Nat) ≤ 0) := by
  refine ⟨by decide, rfl, ⟨_, rfl, by decide⟩, by decide, by decide, by decide⟩

/-- Claim C25 (the pruning invariant of the Levenshtein search): for every row computed
by `match_string_levenshtein_distance` for an accumulated string and every edge symbol,
the least entry of the row computed for the edge is at least the least entry of the row
before; hence once the least entry of a row exceeds a budget, every entry of the row of
every descendant, and its last entry in particular, exceeds the budget. -/
theorem C25_row_minimum (str acc : List Char) (c : Char) :
    ∃ row2 m m2,
      lev_row (str ++ [tree_end_of_string_marker]) c
        (lev_row_of (str ++ [tree_end_of_string_marker]) acc) = .ok row2 ∧
      min_element (lev_row_of (str ++ [tree_end_of_string_marker]) acc) = .ok m ∧
      min_element row2 = .ok m2 ∧ m ≤ m2 ∧
      (∀ (edit_max : Nat) (q : List Char), edit_max < m →
        (∀ x ∈ lev_row_of (str ++ [tree_end_of_string_marker]) (acc ++ q), edit_max < x) ∧
        ∃ goal, checked_at (lev_row_of (str ++ [tree_end_of_string_marker]) (acc ++ q))
            ((lev_row_of (str ++ [tree_end_of_string_marker]) (acc ++ q)).length - 1)
            = .ok goal ∧ edit_max < goal) := by
  obtain ⟨m, hm, hle, hmem⟩ := min_element_spec
    (lev_row_of (str ++ [tree_end_of_string_marker]) acc) (lev_row_of_ne_nil _ _)
  obtain ⟨m2, hm2, hle2, hmem2⟩ := min_element_spec
    (lev_row_of (str ++ [tree_end_of_string_marker]) (acc ++ [c])) (lev_row_of_ne_nil _ _)
  refine ⟨_, m, m2, lev_row_spec _ acc c, hm, hm2, ?_, ?_⟩
  · by_contra hlt
    have hgt : ∀ x ∈ lev_row_of (str ++ [tree_end_of_string_marker]) acc, m2 < x := by
      intro x hx
      have := hle x hx
      omega
    have := lev_row_of_snoc_gt _ acc c m2 hgt m2 hmem2
    omega
  · intro k q hk
    have hgt : ∀ x ∈ lev_row_of (str ++ [tree_end_of_string_marker]) acc, k < x := by
      intro x hx
      have := hle x hx
      omega
    have hall := lev_row_of_append_gt _ acc q k hgt
    exact ⟨hall, _, lev_row_of_goal _ _, hall _ (lev_row_of_last_mem _ _)⟩

theorem add_string_marked (tree : dtree) (s : List Char) (h : marked tree.root) :
    marked (add_string tree s).2.root := by
  by_cases hs : tree_end_of_string_marker ∈ s
  · simpa [add_string, hs] using h
  · simp only [add_string, hs, if_false, dtree.root_mk]
    exact add_string_loop_marked s hs _ h

/-- Claim C24 (the marker and leaf invariant): in the tree of every dictionary reached
from the empty one by any sequence of `add_word` calls, accepted or rejected, at every
node reached from the root the child under an entry has no children exactly when the
entry is labelled by the marker (the child under a marker has no children, and a node
without children other than the root is the child under a marker); the empty tree has
the invariant and `add_string` preserves it. -/
theorem C24_marker_leaf_invariant :
    (∀ (words : List (List Char)) (p : List Char) (n m : dtree_node) (c : Char),
      walk (add_words word_dict.empty words).m_words.root p n → (c, m) ∈ n.m_children →
      (c = tree_end_of_string_marker ↔ m.m_children = [])) ∧
    (∀ (words : List (List Char)), marked (add_words word_dict.empty words).m_words.root) ∧
    marked dtree.empty.root ∧
    (∀ (tree : dtree) (s : List Char), marked tree.root →
      marked (add_string tree s).2.root) ∧
    (∀ (n : dtree_node), marked n →
      ∀ (p : List Char) (n2 m : dtree_node) (c : Char), walk n p n2 →
        (c, m) ∈ n2.m_children → (c = tree_end_of_string_marker ↔ m.m_children = [])) := by
  have key : ∀ (n : dtree_node), marked n →
      ∀ (p : List Char) (n2 m : dtree_node) (c : Char), walk n p n2 →
        (c, m) ∈ n2.m_children → (c = tree_end_of_string_marker ↔ m.m_children = []) := by
    intro n hn p n2 m c hw hc
    have h2 := marked_of_walk hn hw
    obtain ⟨cs⟩ := n2
    exact (marked_children h2).1 (c, m) hc
  refine ⟨?_, ?_, marked_nil, add_string_marked, key⟩
  · intro words p n m c hw hc
    exact key _ (add_words_marked _ _ empty_marked) p n m c hw hc
  · intro words
    exact add_words_marked _ _ empty_marked

theorem fetch_words_mem (words : List (List Char)) (x : List Char) :
    x ∈ fetch_tree_strings (add_words word_dict.empty words).m_words ↔
      ∃ w ∈ accepted_words word_dict.empty words, x = w ++ [tree_end_of_string_marker] := by
  have := mem_fetch_tree_strings_marked (add_words word_dict.empty words).m_words.root
    (add_words_marked _ _ empty_marked) x
  simp only [fetch_tree_strings]
  rw [this]
  constructor
  · rintro ⟨p, hp, hx⟩
    exact ⟨p, (stored_add_words_iff words p).mp hp, hx⟩
  · rintro ⟨p, hp, hx⟩
    exact ⟨p, (stored_add_words_iff words p).mpr hp, hx⟩

theorem fetch_words_nodup (words : List (List Char)) :
    (fetch_tree_strings (add_words word_dict.empty words).m_words).Nodup :=
  fetch_tree_strings_node_nodup _ (add_words_ordered _ _ empty_ordered) []

theorem fetch_words_perm (words : List (List Char)) :
    (fetch_tree_strings (add_words word_dict.empty words).m_words).Perm
      ((accepted_words word_dict.empty words).dedup.map
        (fun w => w ++ [tree_end_of_string_marker])) := by
  rw [List.perm_ext_iff_of_nodup (fetch_words_nodup words)
    ((List.nodup_dedup _).map (List.append_left_injective _))]
  intro x
  rw [fetch_words_mem]
  simp only [List.mem_map, List.mem_dedup]
  constructor
  · rintro ⟨w, hw, rfl⟩
    exact ⟨w, hw, rfl⟩
  · rintro ⟨w, hw, rfl⟩
    exact ⟨w, hw, rfl⟩

theorem foldl_push_back (l init : List (List Char)) :
    l.foldl (fun v str => v ++ [str]) init = init ++ l := by
  induction l generalizing init with
  | nil => simp
  | cons a l ih => simp [ih]

/-- Claim C27 (what `fetch_tree_strings` emits): on the tree of the dictionary built
from the empty one by any sequence of `add_word` calls, the list emitted has no
duplicates, its length is the number of distinct accepted strings, and a string is
emitted exactly when it is an accepted string followed by the marker, so every emitted
string ends with the marker; on the empty tree nothing is emitted; and the vector
overload returns the emitted strings whatever the vector held at entry. -/
theorem C27_fetch_tree_strings_emits :
    (∀ (words : List (List Char)),
      (fetch_tree_strings (add_words word_dict.empty words).m_words).Nodup ∧
      (fetch_tree_strings (add_words word_dict.empty words).m_words).length
        = (accepted_words word_dict.empty words).dedup.length ∧
      (∀ x, x ∈ fetch_tree_strings (add_words word_dict.empty words).m_words ↔
        ∃ w ∈ accepted_words word_dict.empty words,
          x = w ++ [tree_end_of_string_marker]) ∧
      (∀ x ∈ fetch_tree_strings (add_words word_dict.empty words).m_words,
        x.getLast? = some tree_end_of_string_marker)) ∧
    fetch_tree_strings dtree.empty = [] ∧
    (∀ (tree : dtree) (strings : List (List Char)),
      fetch_tree_strings_vector tree strings = fetch_tree_strings tree) ∧
    (∀ (d : word_dict) (strings : List (List Char)),
      d.fetch_words = fetch_tree_strings_vector d.m_words strings) := by
  have hvec : ∀ (tree : dtree) (strings : List (List Char)),
      fetch_tree_strings_vector tree strings = fetch_tree_strings tree := by
    intro tree strings
    simp [fetch_tree_strings_vector, vector_clear, foldl_push_back, fetch_tree_strings]
  refine ⟨?_, rfl, hvec, ?_⟩
  · intro words
    refine ⟨fetch_words_nodup words, ?_, fetch_words_mem words, ?_⟩
    · rw [(fetch_words_perm words).length_eq, List.length_map]
    · intro x hx
      obtain ⟨w, _, rfl⟩ := (fetch_words_mem words x).mp hx
      simp
  · intro d strings
    rw [hvec]
    rfl

theorem fetch_tree_strings_children_sorted (cs : List (Char × dtree_node))
    (hs : (cs.map Prod.fst).Pairwise (fun a b => a < b))
    (ih : ∀ e ∈ cs, ∀ acc,
      (fetch_tree_strings_node e.2 acc).Pairwise (List.Lex (fun a b : Char => a < b)))
    (acc : List Char) :
    (fetch_tree_strings_children cs acc).Pairwise (List.Lex (fun a b : Char => a < b)) := by
  induction cs with
  | nil => simp [fetch_tree_strings_children]
  | cons e rest ihl =>
    obtain ⟨first, second⟩ := e
    simp only [List.map_cons, List.pairwise_cons, List.mem_map, forall_exists_index,
      and_imp] at hs
    rw [fetch_tree_strings_children, List.pairwise_append]
    refine ⟨?_, ihl hs.2 (fun e he => ih e (by simp [he])), ?_⟩
    · by_cases hc : second.has_children = true
      · rw [if_pos hc]
        exact ih (first, second) (by simp) _
      · rw [if_neg hc]
        simp
    · intro x hx1 y hx2
      obtain ⟨t1, h1⟩ := fetch_entry_shape (first, second) acc x hx1
      rw [mem_fetch_tree_strings_children] at hx2
      obtain ⟨e, he, hx2⟩ := hx2
      obtain ⟨t2, h2⟩ := fetch_entry_shape e acc y hx2
      rw [h1, h2]
      exact List.Lex.append_left _ (List.Lex.rel (hs.1 e.1 e he rfl)) acc

/-- On a tree whose keys are in increasing order at every node, the strings handed to
the callback come in strictly increasing lexicographic order. -/
theorem fetch_tree_strings_node_sorted (n : dtree_node) (hn : ordered n) :
    ∀ acc, (fetch_tree_strings_node n acc).Pairwise (List.Lex (fun a b : Char => a < b)) := by
  induction hn with
  | mk cs h1 _ ih =>
    intro acc
    rw [fetch_tree_strings_node_mk]
    exact fetch_tree_strings_children_sorted cs h1 ih acc

theorem mem_accepted_words_perm (words words2 : List (List Char)) (h : words.Perm words2)
    (w : List Char) :
    w ∈ accepted_words word_dict.empty words ↔ w ∈ accepted_words word_dict.empty words2 := by
  rw [mem_accepted_words, mem_accepted_words, h.mem_iff]

/-- Claim C28 (enumeration order): on every tree (its keys in increasing order at every
node, as in any `std::map`) the strings emitted by `fetch_tree_strings` come in strictly
increasing lexicographic order for the order of the symbols, the marker being compared
as any other character; so they do for every dictionary built by `add_word` calls, and
the list emitted does not depend on the order in which the words were inserted. -/
theorem C28_enumeration_order :
    (∀ (tree : dtree), ordered tree.root →
      (fetch_tree_strings tree).Pairwise (List.Lex (fun a b : Char => a < b))) ∧
    (∀ (words : List (List Char)),
      (add_words word_dict.empty words).fetch_words.Pairwise
        (List.Lex (fun a b : Char => a < b))) ∧
    (∀ (words words2 : List (List Char)), words.Perm words2 →
      (add_words word_dict.empty words).fetch_words
        = (add_words word_dict.empty words2).fetch_words) ∧
    (add_words word_dict.empty ["b".toList, "abb".toList, "a".toList, "aaaa".toList,
        "aba".toList]).fetch_words
      = ["a$".toList, "aaaa$".toList, "aba$".toList, "abb$".toList, "b$".toList] ∧
    (add_words word_dict.empty ["a".toList, "b".toList, "aba".toList, "abb".toList,
        "aaaa".toList]).fetch_words
      = ["a$".toList, "aaaa$".toList, "aba$".toList, "abb$".toList, "b$".toList] := by
  have hsorted : ∀ (words : List (List Char)),
      (fetch_tree_strings (add_words word_dict.empty words).m_words).Pairwise
        (List.Lex (fun a b : Char => a < b)) := fun words =>
    fetch_tree_strings_node_sorted _ (add_words_ordered _ _ empty_ordered) []
  refine ⟨fun tree h => fetch_tree_strings_node_sorted _ h [], hsorted, ?_, by decide,
    by decide⟩
  intro words words2 hp
  have hperm : (fetch_tree_strings (add_words word_dict.empty words).m_words).Perm
      (fetch_tree_strings (add_words word_dict.empty words2).m_words) := by
    rw [List.perm_ext_iff_of_nodup (fetch_words_nodup words) (fetch_words_nodup words2)]
    intro x
    rw [fetch_words_mem, fetch_words_mem]
    constructor
    · rintro ⟨w, hw, rfl⟩
      exact ⟨w, (mem_accepted_words_perm words words2 hp w).mp hw, rfl⟩
    · rintro ⟨w, hw, rfl⟩
      exact ⟨w, (mem_accepted_words_perm words words2 hp w).mpr hw, rfl⟩
  haveI : IsAntisymm (List Char) (List.Lex (fun a b : Char => a < b)) :=
    ⟨fun a b h1 h2 => absurd h2 (asymm h1)⟩
  exact List.eq_of_perm_of_sorted hperm (hsorted words) (hsorted words2)

/-- Claim C17 (no out-of-range index is reachable) fails on the code, for the
Levenshtein matcher: `s_lev_row_size` is an `unsigned int`, so for the query of
2^32 - 2 characters `a` on the dictionary holding "a", `s.length() + 1` wraps to 0,
the first row is empty and the checked access `prev_lev_row.at(0)` at the first child
of the root is out of range; the same happens on every tree whose root has a child, for
every query whose length plus 2 is a multiple of 2^32. For a query shorter than
2^32 - 2 characters the size does not wrap: the matcher at 32 bits is
`match_string_levenshtein_distance`, and the three matchers return a value, so none of
their checked accesses is out of bounds. `set` runs only the message builder selected
by the success flag, whatever the other builder is. -/
theorem C17_lev_first_row_out_of_range :
    match_string_levenshtein_distance_uint
        (add_words word_dict.empty ["a".toList]).m_words (List.replicate (2 ^ 32 - 2) 'a') 0
      = .error .out_of_range ∧
    (∀ (tree : dtree) (str : List Char) (edit_max : Nat),
      (str.length + 2) % 2 ^ 32 = 0 → tree.root.has_children = true →
      match_string_levenshtein_distance_uint tree str edit_max = .error .out_of_range) ∧
    (∀ (tree : dtree) (str : List Char) (budget : Nat), str.length + 2 < 2 ^ 32 →
      match_string_levenshtein_distance_uint tree str budget
        = match_string_levenshtein_distance tree str budget ∧
      (∃ md, match_string_exactly tree str = .ok md) ∧
      (∃ md, match_string_allow_substitution tree str budget = .ok md) ∧
      (∃ md, match_string_levenshtein_distance tree str budget = .ok md)) ∧
    (∀ (algorithm source : List Char)
        (message_success message_failure other : Unit → Except Err (List Char)),
      match_data.set algorithm source true message_success message_failure
        = match_data.set algorithm source true message_success other ∧
      match_data.set algorithm source false message_success message_failure
        = match_data.set algorithm source false other message_failure) ∧
    (∀ (algorithm source message : List Char),
      match_data.set algorithm source true (fun _ => .ok message)
          (fun _ => .error .out_of_range)
        = .ok ⟨algorithm, source, true, message⟩ ∧
      match_data.set algorithm source false (fun _ => .error .out_of_range)
          (fun _ => .ok message)
        = .ok ⟨algorithm, source, false, message⟩) := by
  have hwrap : ∀ (tree : dtree) (str : List Char) (edit_max : Nat),
      (str.length + 2) % 2 ^ 32 = 0 → tree.root.has_children = true →
      match_string_levenshtein_distance_uint tree str edit_max = .error .out_of_range := by
    intro tree str edit_max h hc
    have h1 : to_uint ((str ++ [tree_end_of_string_marker]).length + 1) = 0 := by
      simp only [to_uint, List.length_append, List.length_singleton]
      exact h
    have hs : lev_search_uint tree str edit_max = .error .out_of_range := by
      rw [has_children_iff] at hc
      cases hcs : tree.root.m_children with
      | nil => exact absurd hcs hc
      | cons e rest =>
        obtain ⟨first, second⟩ := e
        simp only [lev_search_uint, h1, List.range_zero]
        rw [lev_loop]
        simp [search_vars.init, hcs, lev_visit, lev_row, checked_at]
    rw [match_string_levenshtein_distance_uint]
    simp only [hs]
  refine ⟨hwrap _ _ _ ?_ ?_, hwrap, ?_, ?_, ?_⟩
  · rw [List.length_replicate]
    norm_num
  · decide
  · intro tree str budget hlt
    obtain ⟨_, ms, _, h1, _⟩ := match_string_allow_substitution_spec tree str budget
    obtain ⟨_, ml, _, h2, _⟩ := match_string_levenshtein_distance_spec tree str budget
    refine ⟨?_, ⟨_, match_string_exactly_eq tree str⟩, ⟨ms, h1⟩, ⟨ml, h2⟩⟩
    have hu : to_uint ((str ++ [tree_end_of_string_marker]).length + 1)
        = (str ++ [tree_end_of_string_marker]).length + 1 := by
      simp only [to_uint, List.length_append, List.length_singleton]
      exact Nat.mod_eq_of_lt hlt
    have hs : lev_search_uint tree str budget = lev_search tree str budget := by
      simp only [lev_search_uint, lev_search, hu]
    rw [match_string_levenshtein_distance_uint, match_string_levenshtein_distance]
    simp only [hs]
  · intro a src ms mf other
    exact ⟨rfl, rfl⟩
  · intro a src m
    exact ⟨rfl, rfl⟩
